import Mathlib

/-!
# Verification of the catalog reconciliation and synchronization engine

Shallow embedding of the reconciliation logic of this repository:
* `scripts/assign_ids.py` — the conflict resolver (`assign_ids`) and its
  identifier allocator (`get_next_id`);
* `scripts/sync_with_api.py` — the name normalizer (`normalize_name`), the
  entity matcher (`build_api_name_map`, `sync_categories`) and the reference
  rewriter (`update_services_category_ids`).

JSON values are embedded as `Prim`/`Val`; JSON objects (Python dicts) as
insertion-ordered association lists with first-match lookup and
replace-in-place update, which reproduces dict semantics as long as keys are
not duplicated.  Python code that would raise (missing key, ill-typed field)
is embedded in `Option`, `none` standing for the raised exception.
-/

namespace RefoAuto

/-! ## Association-list primitives (Python `dict` operations) -/

/-- First-match lookup: `d[k]` / `k in d` (as `Option`). -/
def getA {κ β : Type} [DecidableEq κ] : List (κ × β) → κ → Option β
  | [], _ => none
  | (k, v) :: rest, key => if k = key then some v else getA rest key

/-- `d.get(k, default)`. -/
def getD {κ β : Type} [DecidableEq κ] (m : List (κ × β)) (k : κ) (d : β) : β :=
  (getA m k).getD d

/-- `d[k] = v`: replace the binding in place if the key is present
(Python dicts keep the original insertion position), append otherwise. -/
def setA {κ β : Type} [DecidableEq κ] : List (κ × β) → κ → β → List (κ × β)
  | [], key, v => [(key, v)]
  | (k, w) :: rest, key, v =>
    if k = key then (key, v) :: rest else (k, w) :: setA rest key v

theorem getA_setA_self {κ β : Type} [DecidableEq κ] (m : List (κ × β)) (k : κ) (v : β) :
    getA (setA m k v) k = some v := by
  induction m with
  | nil => simp [setA, getA]
  | cons p rest ih =>
    obtain ⟨k', w⟩ := p
    by_cases h : k' = k <;> simp [setA, getA, h, ih]

theorem getA_setA_ne {κ β : Type} [DecidableEq κ] (m : List (κ × β)) (k k' : κ) (v : β)
    (h : k ≠ k') : getA (setA m k v) k' = getA m k' := by
  induction m with
  | nil => simp [setA, getA, h]
  | cons p rest ih =>
    obtain ⟨k₀, w⟩ := p
    by_cases h0 : k₀ = k
    · subst h0; simp [setA, getA, h]
    · simp [setA, getA, h0, ih]

/-- Setting a fresh key appends the binding at the end (dict insertion order). -/
theorem setA_eq_append_of_getA_eq_none {κ β : Type} [DecidableEq κ]
    (m : List (κ × β)) (k : κ) (v : β) (h : getA m k = none) :
    setA m k v = m ++ [(k, v)] := by
  induction m with
  | nil => simp [setA]
  | cons p rest ih =>
    obtain ⟨k₀, w⟩ := p
    by_cases h0 : k₀ = k
    · simp [getA, h0] at h
    · simp [getA, h0] at h
      simp [setA, h0, ih h]

/-! ## JSON values

One level of object nesting (enough for every field the scripts access:
`name_i18n` is a dict of language → string, everything else is flat). -/

/-- A primitive JSON value. -/
inductive Prim : Type
  | pInt : ℤ → Prim
  | pStr : String → Prim
  | pBool : Bool → Prim
  | pNull : Prim
deriving DecidableEq, Repr

/-- A JSON field value: a primitive or a flat object of primitives. -/
inductive Val : Type
  | prim : Prim → Val
  | dict : List (String × Prim) → Val
deriving DecidableEq, Repr

/-- A JSON object / Python dict record. -/
abbrev Obj : Type := List (String × Val)

/-! ## Name Normalizer — `normalize_name` (sync_with_api.py lines 36–51) -/

/-- A character matched by the regex class `\s`. -/
def isWs (c : Char) : Bool := c.isWhitespace

/-- A character matched by the regex class `\w` (word character:
letter, digit or underscore; ASCII model of Python's `\w`). -/
def isWordChar (c : Char) : Bool := c.isAlphanum || c = '_'

/-- `str.strip()` on a character list. -/
def stripChars (s : List Char) : List Char :=
  ((s.dropWhile isWs).reverse.dropWhile isWs).reverse

/-- Helper for `re.sub(r'\s+', ' ', name)`: the flag records whether we are
inside a whitespace run whose first character was already replaced. -/
def collapseAux (inRun : Bool) : List Char → List Char
  | [] => []
  | c :: rest =>
    if isWs c then
      if inRun then collapseAux true rest else ' ' :: collapseAux true rest
    else c :: collapseAux false rest

/-- `re.sub(r'\s+', ' ', name)`: replace each maximal whitespace run by a
single space. -/
def collapseWs (s : List Char) : List Char := collapseAux false s

/-- `re.sub(r'[^\w\s]', '', name)`: drop every character that is neither a
word character nor whitespace. -/
def removeSpecials (s : List Char) : List Char :=
  s.filter (fun c => isWordChar c || isWs c)

/-- `normalize_name` (sync_with_api.py lines 36–51): empty/falsy input gives
`""`; otherwise lowercase, strip, collapse whitespace runs, then remove the
characters outside `\w` and `\s` — in that order. -/
def normalize_name (s : String) : String :=
  if s.isEmpty then ""
  else ⟨removeSpecials (collapseWs (stripChars (s.data.map Char.toLower)))⟩

/-! ### Character-level lemmas for the normalizer -/

theorem uint32_toNat_le {a b : UInt32} (h : a ≤ b) : a.toNat ≤ b.toNat := by
  simpa [UInt32.le_def, BitVec.le_def, UInt32.toNat] using h

/-- `Char.toLower` never produces an upper-case (ASCII) letter. -/
theorem isUpper_toLower (c : Char) : (Char.toLower c).isUpper = false := by
  show (let n := c.toNat; if n ≥ 65 ∧ n ≤ 90 then Char.ofNat (n + 32) else c).isUpper = false
  by_cases h : c.toNat ≥ 65 ∧ c.toNat ≤ 90
  · simp only [if_pos h]
    obtain ⟨h1, h2⟩ := h
    have hv : (Char.toNat c + 32).isValidChar := by
      left
      omega
    have hval : (Char.ofNat (Char.toNat c + 32)).val.toNat = Char.toNat c + 32 := by
      rw [Char.ofNat, dif_pos hv]
      rfl
    unfold Char.isUpper
    rw [Bool.and_eq_false_iff]
    right
    simp only [decide_eq_false_iff_not]
    intro hle
    have h2' : (Char.ofNat (Char.toNat c + 32)).val.toNat ≤ (90 : UInt32).toNat :=
      uint32_toNat_le hle
    rw [hval] at h2'
    have he : (90 : UInt32).toNat = 90 := rfl
    omega
  · simp only [if_neg h]
    unfold Char.isUpper
    rw [Bool.and_eq_false_iff]
    by_cases h65 : (65 : UInt32) ≤ c.val
    · right
      simp only [decide_eq_false_iff_not]
      intro h90
      apply h
      have a1 : (65 : UInt32).toNat ≤ c.val.toNat := uint32_toNat_le h65
      have a2 : c.val.toNat ≤ (90 : UInt32).toNat := uint32_toNat_le h90
      have e1 : (65 : UInt32).toNat = 65 := rfl
      have e2 : (90 : UInt32).toNat = 90 := rfl
      unfold Char.toNat
      omega
    · left
      simp only [decide_eq_false_iff_not]
      exact h65

theorem mem_collapseAux {b : Bool} {l : List Char} {c : Char} (h : c ∈ collapseAux b l) :
    c = ' ' ∨ (c ∈ l ∧ isWs c = false) := by
  induction l generalizing b with
  | nil => simp [collapseAux] at h
  | cons a rest ih =>
    by_cases hw : isWs a
    · rw [collapseAux, if_pos hw] at h
      cases b with
      | true =>
        rcases ih h with h1 | ⟨h2, h3⟩
        · exact Or.inl h1
        · exact Or.inr ⟨List.mem_cons_of_mem _ h2, h3⟩
      | false =>
        rcases List.mem_cons.mp h with h1 | h2
        · exact Or.inl h1
        · rcases ih h2 with h3 | ⟨h4, h5⟩
          · exact Or.inl h3
          · exact Or.inr ⟨List.mem_cons_of_mem _ h4, h5⟩
    · rw [collapseAux, if_neg hw] at h
      rcases List.mem_cons.mp h with h1 | h2
      · subst h1
        exact Or.inr ⟨List.mem_cons_self _ _, by simpa using hw⟩
      · rcases ih h2 with h3 | ⟨h4, h5⟩
        · exact Or.inl h3
        · exact Or.inr ⟨List.mem_cons_of_mem _ h4, h5⟩

theorem mem_of_mem_dropWhile {α : Type} {p : α → Bool} {l : List α} {c : α}
    (h : c ∈ l.dropWhile p) : c ∈ l := by
  induction l with
  | nil => simp at h
  | cons a rest ih =>
    rw [List.dropWhile_cons] at h
    split at h
    · exact List.mem_cons_of_mem _ (ih h)
    · exact h

theorem mem_of_mem_stripChars {l : List Char} {c : Char} (h : c ∈ stripChars l) : c ∈ l := by
  unfold stripChars at h
  exact mem_of_mem_dropWhile (List.mem_reverse.mp (mem_of_mem_dropWhile (List.mem_reverse.mp h)))

/-! ### Claim C9 -/

/-- C9 (counterexample): the claim says every character outside
{letters, digits, space} is removed, but `normalize_name` keeps the
underscore (`\w` includes `_`): on input `"_"` the output still contains
`'_'`, which is neither a letter, a digit nor a space. -/
theorem normalize_name_underscore_kept :
    normalize_name "_" = "_" ∧ '_'.isAlphanum = false ∧ '_' ≠ ' ' := by
  refine ⟨by decide, by decide, by decide⟩

/-- C9 (amended): `normalize_name` is total; empty input yields the empty
string; every output character is a letter, a digit, an underscore or a
space, and no output character is an upper-case letter.  (The underscore is
a `\w` word character, so it is kept, not removed; special characters are
removed only after whitespace has been collapsed and trimmed.) -/
theorem normalize_name_output_chars (s : String) :
    normalize_name "" = "" ∧
    ∀ c ∈ (normalize_name s).data,
      (c.isAlphanum = true ∨ c = '_' ∨ c = ' ') ∧ c.isUpper = false := by
  refine ⟨rfl, ?_⟩
  intro c hc
  unfold normalize_name at hc
  by_cases he : s.isEmpty
  · rw [if_pos he] at hc
    simp at hc
  · rw [if_neg he] at hc
    have hc' : c ∈ removeSpecials (collapseWs (stripChars (s.data.map Char.toLower))) := hc
    unfold removeSpecials at hc'
    obtain ⟨hin, hkeep⟩ := List.mem_filter.mp hc'
    constructor
    · rcases Bool.or_eq_true_iff.mp hkeep with hw | hs
      · unfold isWordChar at hw
        rcases Bool.or_eq_true_iff.mp hw with h1 | h2
        · exact Or.inl h1
        · exact Or.inr (Or.inl (by simpa using h2))
      · rcases mem_collapseAux hin with h1 | ⟨_, h3⟩
        · exact Or.inr (Or.inr h1)
        · rw [hs] at h3
          cases h3
    · rcases mem_collapseAux hin with h1 | ⟨h2, _⟩
      · rw [h1]
        decide
      · obtain ⟨a, _, rfl⟩ := List.mem_map.mp (mem_of_mem_stripChars h2)
        exact isUpper_toLower a

/-- C9 (witness for the amended theorem at a concrete input). -/
theorem normalize_name_output_chars_witness :
    normalize_name "" = "" ∧
    (('a'.isAlphanum = true ∨ 'a' = '_' ∨ 'a' = ' ') ∧ 'a'.isUpper = false) := by
  have h := normalize_name_output_chars "Ab"
  exact ⟨h.1, h.2 'a' (by decide)⟩

/-! ## Conflict Resolver — `assign_ids` (assign_ids.py lines 26–143)

An array item is its (nullable, possibly absent) ID field plus the rest of
the record, which `assign_ids` never modifies; `id = none` stands for both
a missing `id` key and an explicit `null` (the code treats them alike,
lines 61 and 67).  IDs are integers.  File I/O and the printed report are
outside the embedding; the returned value is the transformed array, with
the verification of lines 117–125 as the `Except` error cases. -/

/-- An item of the JSON array handled by `assign_ids`. -/
structure Item (α : Type) where
  id : Option ℤ
  payload : α
deriving DecidableEq

namespace AssignIds

variable {α : Type}

/-- Lines 63–66: append index `i` to the `existing_ids` entry of `v`,
creating the entry if absent. -/
def addIndex : List (ℤ × List ℕ) → ℤ → ℕ → List (ℤ × List ℕ)
  | [], v, i => [(v, [i])]
  | (k, l) :: rest, v, i =>
    if k = v then (k, l ++ [i]) :: rest else (k, l) :: addIndex rest v i

/-- The scan of lines 60–68, from position `i` on, with `existing_ids`
accumulated in `m` and `items_without_id` in `w`. -/
def collectFrom : ℕ → List (ℤ × List ℕ) → List ℕ → List (Item α) →
    List (ℤ × List ℕ) × List ℕ
  | _, m, w, [] => (m, w)
  | i, m, w, it :: rest =>
    match it.id with
    | some v => collectFrom (i+1) (addIndex m v i) w rest
    | none => collectFrom (i+1) m (w ++ [i]) rest

/-- `existing_ids` after the scan of lines 60–68: ID → list of indices. -/
def existing_ids (items : List (Item α)) : List (ℤ × List ℕ) :=
  (collectFrom 0 [] [] items).1

/-- `items_without_id` after the scan of lines 60–68. -/
def items_without_id (items : List (Item α)) : List ℕ :=
  (collectFrom 0 [] [] items).2

/-- Line 71: the entries of `existing_ids` with more than one index. -/
def conflicts (items : List (Item α)) : List (ℤ × List ℕ) :=
  (existing_ids items).filter (fun p => 1 < p.2.length)

/-- Lines 82–85: for each conflict group keep the first occurrence and
schedule the rest for reassignment. -/
def ids_to_reassign (items : List (Item α)) : List ℕ :=
  (conflicts items).flatMap (fun p => p.2.drop 1)

/-- Line 91: the set of identifiers already in use. -/
def used_ids (items : List (Item α)) : Finset ℤ :=
  ((existing_ids items).map Prod.fst).toFinset

/-- Lines 88 and 105: `sorted(set(items_without_id) | set(ids_to_reassign))`,
the ascending duplicate-free enumeration of the union of the two sets. -/
def needs_list (items : List (Item α)) : List ℕ :=
  ((items_without_id items ++ ids_to_reassign items).dedup).insertionSort (· ≤ ·)

/-- The `while next_id in used_ids` loop of lines 96–97, with explicit
fuel.  The fuel-0 case is unreachable for the fuel `get_next_id` supplies
(`gniFuel_spec` below needs no case for it). -/
def gniFuel : ℕ → Finset ℤ → ℤ → ℤ
  | 0, _, next_id => next_id
  | n+1, used, next_id =>
    if next_id ∈ used then gniFuel n used (next_id + 1) else next_id

/-- `get_next_id` (lines 94–99): bump `next_id` past the used set and
return the first free value.  The loop terminates because only finitely
many used IDs are ≥ `next_id`; one more than their count bounds the number
of iterations.  The `used.add`/`return` of the Python closure is the state
update performed by `assignLoop` below. -/
def get_next_id (used : Finset ℤ) (next_id : ℤ) : ℤ :=
  gniFuel ((used.filter (next_id ≤ ·)).card + 1) used next_id

theorem gniFuel_spec (n : ℕ) :
    ∀ (used : Finset ℤ) (nid : ℤ), (used.filter (nid ≤ ·)).card < n →
      gniFuel n used nid ∉ used ∧ nid ≤ gniFuel n used nid ∧
      ∀ x, nid ≤ x → x ∉ used → gniFuel n used nid ≤ x := by
  induction n with
  | zero => intro used nid h; omega
  | succ n ih =>
    intro used nid h
    by_cases hmem : nid ∈ used
    · have hcard : (used.filter (nid + 1 ≤ ·)).card < n := by
        have hss : used.filter (nid + 1 ≤ ·) ⊂ used.filter (nid ≤ ·) := by
          constructor
          · intro x hx
            rw [Finset.mem_filter] at hx ⊢
            exact ⟨hx.1, by omega⟩
          · intro hsub
            have h1 : nid ∈ used.filter (nid ≤ ·) := by
              rw [Finset.mem_filter]
              exact ⟨hmem, le_refl _⟩
            have h2 := hsub h1
            rw [Finset.mem_filter] at h2
            omega
        have := Finset.card_lt_card hss
        omega
      obtain ⟨h1, h2, h3⟩ := ih used (nid + 1) hcard
      refine ⟨by simpa [gniFuel, hmem] using h1, ?_, ?_⟩
      · simp only [gniFuel, hmem, if_true]
        omega
      · intro x hx hx2
        simp only [gniFuel, hmem, if_true]
        have : nid + 1 ≤ x := by
          rcases lt_or_eq_of_le hx with h | h
          · omega
          · exact absurd hmem (h ▸ hx2)
        exact h3 x this hx2
    · exact ⟨by simp [gniFuel, hmem], by simp [gniFuel, hmem], fun x hx _ => by
        simpa [gniFuel, hmem] using hx⟩

/-- `get_next_id used nid` is the least integer ≥ `nid` outside `used`. -/
theorem get_next_id_spec (used : Finset ℤ) (nid : ℤ) :
    get_next_id used nid ∉ used ∧ nid ≤ get_next_id used nid ∧
    ∀ x, nid ≤ x → x ∉ used → get_next_id used nid ≤ x :=
  gniFuel_spec _ used nid (Nat.lt_succ_self _)

/-- Line 108: `items[idx][id_field] = new_id`. -/
def setItemId : List (Item α) → ℕ → ℤ → List (Item α)
  | [], _, _ => []
  | it :: rest, 0, v => ⟨some v, it.payload⟩ :: rest
  | it :: rest, n+1, v => it :: setItemId rest n v

/-- Lines 105–108: assign a fresh ID to each scheduled index in ascending
order, threading the allocator state (`used_ids`, `next_id`). -/
def assignLoop : List ℕ → Finset ℤ → ℤ → List (Item α) →
    List (Item α) × Finset ℤ × ℤ
  | [], used, nid, items => (items, used, nid)
  | idx :: rest, used, nid, items =>
    let v := get_next_id used nid
    assignLoop rest (insert v used) v (setItemId items idx v)

/-- The transformed array produced by `assign_ids` (lines 56–115). -/
def assignIdsItems (start_id : ℤ) (items : List (Item α)) : List (Item α) :=
  (assignLoop (needs_list items) (used_ids items) start_id items).1

/-- `assign_ids` (lines 26–143) with the final verification of
lines 117–125: duplicate IDs or a remaining `null` ID raise. -/
def assign_ids (start_id : ℤ) (items : List (Item α)) : Except String (List (Item α)) :=
  let res := assignIdsItems start_id items
  if (res.map Item.id).Nodup then
    if res.any (fun it => it.id.isNone) then
      Except.error "Some items still have no ID"
    else
      Except.ok res
  else
    Except.error "Failed to make all IDs unique!"

/-! ### Characterizing the scan of lines 60–88 -/

/-- The positions (counting from `i`) of the items whose ID is `some v`. -/
def occsFrom (v : ℤ) : ℕ → List (Item α) → List ℕ
  | _, [] => []
  | i, it :: rest =>
    if it.id = some v then i :: occsFrom v (i+1) rest else occsFrom v (i+1) rest

/-- The positions (counting from `i`) of the items without an ID. -/
def nonesFrom : ℕ → List (Item α) → List ℕ
  | _, [] => []
  | i, it :: rest =>
    if it.id = none then i :: nonesFrom (i+1) rest else nonesFrom (i+1) rest

/-- Keys of an association list are pairwise distinct. -/
def NodupKeys {κ β : Type} (m : List (κ × β)) : Prop := (m.map Prod.fst).Nodup

theorem getA_addIndex_self (m : List (ℤ × List ℕ)) (v : ℤ) (i : ℕ) :
    getA (addIndex m v i) v = some ((getA m v).getD [] ++ [i]) := by
  induction m with
  | nil => simp [addIndex, getA]
  | cons p rest ih =>
    obtain ⟨k, l⟩ := p
    by_cases h : k = v
    · subst h
      simp [addIndex, getA]
    · simp [addIndex, getA, h, ih]

theorem getA_addIndex_ne (m : List (ℤ × List ℕ)) {v u : ℤ} (i : ℕ) (h : v ≠ u) :
    getA (addIndex m v i) u = getA m u := by
  induction m with
  | nil => simp [addIndex, getA, h]
  | cons p rest ih =>
    obtain ⟨k, l⟩ := p
    by_cases h0 : k = v
    · subst h0
      simp [addIndex, getA, h]
    · simp only [addIndex, if_neg h0]
      by_cases h1 : k = u <;> simp [getA, h1, ih]

theorem mem_keys_addIndex {m : List (ℤ × List ℕ)} {v u : ℤ} {i : ℕ} :
    u ∈ (addIndex m v i).map Prod.fst ↔ u ∈ m.map Prod.fst ∨ u = v := by
  induction m with
  | nil => simp [addIndex]
  | cons p rest ih =>
    obtain ⟨k, l⟩ := p
    by_cases h : k = v
    · subst h
      simp [addIndex]
      tauto
    · simp [addIndex, h, ih]
      tauto

theorem nodupKeys_addIndex {m : List (ℤ × List ℕ)} (v : ℤ) (i : ℕ)
    (h : NodupKeys m) : NodupKeys (addIndex m v i) := by
  induction m with
  | nil => simp [NodupKeys, addIndex]
  | cons p rest ih =>
    obtain ⟨k, l⟩ := p
    unfold NodupKeys at h
    rw [List.map_cons, List.nodup_cons] at h
    by_cases h0 : k = v
    · subst h0
      unfold NodupKeys
      simpa [addIndex] using h
    · unfold NodupKeys
      rw [show addIndex ((k, l) :: rest) v i = (k, l) :: addIndex rest v i from by
        simp [addIndex, h0]]
      rw [List.map_cons, List.nodup_cons]
      refine ⟨?_, ih h.2⟩
      intro hk
      rcases mem_keys_addIndex.mp hk with h1 | h1
      · exact h.1 h1
      · exact h0 h1

theorem collectFrom_snd (items : List (Item α)) :
    ∀ (i : ℕ) (m : List (ℤ × List ℕ)) (w : List ℕ),
      (collectFrom i m w items).2 = w ++ nonesFrom i items := by
  induction items with
  | nil => intro i m w; simp [collectFrom, nonesFrom]
  | cons it rest ih =>
    intro i m w
    cases hid : it.id with
    | some v => simp [collectFrom, hid, nonesFrom, ih]
    | none => simp [collectFrom, hid, nonesFrom, ih]

theorem collectFrom_getA (items : List (Item α)) :
    ∀ (i : ℕ) (m : List (ℤ × List ℕ)) (w : List ℕ) (v : ℤ),
      getA (collectFrom i m w items).1 v =
        match getA m v with
        | some l => some (l ++ occsFrom v i items)
        | none =>
          if occsFrom v i items = [] then none else some (occsFrom v i items) := by
  induction items with
  | nil =>
    intro i m w v
    cases h : getA m v <;> simp [collectFrom, occsFrom, h]
  | cons it rest ih =>
    intro i m w v
    cases hid : it.id with
    | some u =>
      rw [show collectFrom i m w (it :: rest) = collectFrom (i+1) (addIndex m u i) w rest
        from by simp [collectFrom, hid]]
      rw [ih]
      by_cases huv : u = v
      · subst huv
        rw [getA_addIndex_self]
        cases h : getA m u with
        | some l => simp [occsFrom, hid, h]
        | none => simp [occsFrom, hid, h]
      · rw [getA_addIndex_ne m i huv]
        have : occsFrom v i (it :: rest) = occsFrom v (i+1) rest := by
          simp [occsFrom, hid, huv]
        rw [this]
    | none =>
      rw [show collectFrom i m w (it :: rest) = collectFrom (i+1) m (w ++ [i]) rest
        from by simp [collectFrom, hid]]
      rw [ih]
      have : occsFrom v i (it :: rest) = occsFrom v (i+1) rest := by
        simp [occsFrom, hid]
      rw [this]

theorem collectFrom_nodupKeys (items : List (Item α)) :
    ∀ (i : ℕ) (m : List (ℤ × List ℕ)) (w : List ℕ),
      NodupKeys m → NodupKeys (collectFrom i m w items).1 := by
  induction items with
  | nil => intro i m w h; simpa [collectFrom] using h
  | cons it rest ih =>
    intro i m w h
    cases hid : it.id with
    | some v =>
      rw [show collectFrom i m w (it :: rest) = collectFrom (i+1) (addIndex m v i) w rest
        from by simp [collectFrom, hid]]
      exact ih _ _ _ (nodupKeys_addIndex v i h)
    | none =>
      rw [show collectFrom i m w (it :: rest) = collectFrom (i+1) m (w ++ [i]) rest
        from by simp [collectFrom, hid]]
      exact ih _ _ _ h

theorem existing_ids_nodupKeys (items : List (Item α)) : NodupKeys (existing_ids items) :=
  collectFrom_nodupKeys items 0 [] [] (by simp [NodupKeys])

theorem getA_eq_some_iff_mem {κ β : Type} [DecidableEq κ] {m : List (κ × β)}
    (h : NodupKeys m) {k : κ} {b : β} : getA m k = some b ↔ (k, b) ∈ m := by
  induction m with
  | nil => simp [getA]
  | cons p rest ih =>
    obtain ⟨k0, b0⟩ := p
    unfold NodupKeys at h
    rw [List.map_cons, List.nodup_cons] at h
    by_cases h0 : k0 = k
    · subst h0
      simp only [getA, if_pos rfl, List.mem_cons]
      constructor
      · rintro h1
        exact Or.inl (by simpa [eq_comm] using h1)
      · rintro (h1 | h1)
        · simp [Prod.ext_iff] at h1
          simp [h1]
        · exact absurd (List.mem_map_of_mem Prod.fst h1) h.1
    · simp only [getA, if_neg h0, List.mem_cons]
      rw [ih h.2]
      constructor
      · exact Or.inr
      · rintro (h1 | h1)
        · rw [Prod.ext_iff] at h1
          exact absurd h1.1.symm h0
        · exact h1

/-- `existing_ids` maps each ID to exactly its list of occurrence positions. -/
theorem getA_existing_ids (items : List (Item α)) (v : ℤ) :
    getA (existing_ids items) v =
      if occsFrom v 0 items = [] then none else some (occsFrom v 0 items) := by
  unfold existing_ids
  rw [collectFrom_getA]
  simp [getA]

theorem items_without_id_eq (items : List (Item α)) :
    items_without_id items = nonesFrom 0 items := by
  unfold items_without_id
  rw [collectFrom_snd]
  simp

theorem mem_occsFrom {v : ℤ} {items : List (Item α)} {j : ℕ} :
    ∀ {i : ℕ}, j ∈ occsFrom v i items ↔
      ∃ k it, j = i + k ∧ items.get? k = some it ∧ it.id = some v := by
  induction items with
  | nil => intro i; simp [occsFrom]
  | cons it rest ih =>
    intro i
    by_cases hid : it.id = some v
    · rw [show occsFrom v i (it :: rest) = i :: occsFrom v (i+1) rest from by
        simp [occsFrom, hid]]
      rw [List.mem_cons, ih]
      constructor
      · rintro (h | ⟨k, it2, hj, hget, hv⟩)
        · exact ⟨0, it, by omega, rfl, hid⟩
        · exact ⟨k + 1, it2, by omega, by simpa using hget, hv⟩
      · rintro ⟨k, it2, hj, hget, hv⟩
        cases k with
        | zero =>
          left
          omega
        | succ k =>
          right
          exact ⟨k, it2, by omega, by simpa using hget, hv⟩
    · rw [show occsFrom v i (it :: rest) = occsFrom v (i+1) rest from by
        simp [occsFrom, hid]]
      rw [ih]
      constructor
      · rintro ⟨k, it2, hj, hget, hv⟩
        exact ⟨k + 1, it2, by omega, by simpa using hget, hv⟩
      · rintro ⟨k, it2, hj, hget, hv⟩
        cases k with
        | zero =>
          simp at hget
          rw [← hget] at hv
          exact absurd hv hid
        | succ k =>
          exact ⟨k, it2, by omega, by simpa using hget, hv⟩

theorem mem_nonesFrom {items : List (Item α)} {j : ℕ} :
    ∀ {i : ℕ}, j ∈ nonesFrom i items ↔
      ∃ k it, j = i + k ∧ items.get? k = some it ∧ it.id = none := by
  induction items with
  | nil => intro i; simp [nonesFrom]
  | cons it rest ih =>
    intro i
    by_cases hid : it.id = none
    · rw [show nonesFrom i (it :: rest) = i :: nonesFrom (i+1) rest from by
        simp [nonesFrom, hid]]
      rw [List.mem_cons, ih]
      constructor
      · rintro (h | ⟨k, it2, hj, hget, hv⟩)
        · exact ⟨0, it, by omega, rfl, hid⟩
        · exact ⟨k + 1, it2, by omega, by simpa using hget, hv⟩
      · rintro ⟨k, it2, hj, hget, hv⟩
        cases k with
        | zero =>
          left
          omega
        | succ k =>
          right
          exact ⟨k, it2, by omega, by simpa using hget, hv⟩
    · rw [show nonesFrom i (it :: rest) = nonesFrom (i+1) rest from by
        simp [nonesFrom, hid]]
      rw [ih]
      constructor
      · rintro ⟨k, it2, hj, hget, hv⟩
        exact ⟨k + 1, it2, by omega, by simpa using hget, hv⟩
      · rintro ⟨k, it2, hj, hget, hv⟩
        cases k with
        | zero =>
          simp at hget
          rw [← hget] at hv
          exact absurd hv hid
        | succ k =>
          exact ⟨k, it2, by omega, by simpa using hget, hv⟩

theorem occsFrom_sorted (v : ℤ) (items : List (Item α)) :
    ∀ i : ℕ, (occsFrom v i items).Sorted (· < ·) := by
  induction items with
  | nil => intro i; simp [occsFrom]
  | cons it rest ih =>
    intro i
    by_cases hid : it.id = some v
    · rw [show occsFrom v i (it :: rest) = i :: occsFrom v (i+1) rest from by
        simp [occsFrom, hid]]
      rw [List.sorted_cons]
      refine ⟨?_, ih (i+1)⟩
      intro b hb
      obtain ⟨k, _, hj, _, _⟩ := mem_occsFrom.mp hb
      omega
    · rw [show occsFrom v i (it :: rest) = occsFrom v (i+1) rest from by
        simp [occsFrom, hid]]
      exact ih (i+1)

/-- In a strictly sorted list, the elements after the head are exactly the
members having a strictly smaller member. -/
theorem mem_drop_one_of_sorted {l : List ℕ} (hs : l.Sorted (· < ·)) {x : ℕ} :
    x ∈ l.drop 1 ↔ x ∈ l ∧ ∃ y ∈ l, y < x := by
  cases l with
  | nil => simp
  | cons a t =>
    rw [List.sorted_cons] at hs
    simp only [List.drop_one, List.tail_cons, List.mem_cons]
    constructor
    · intro hx
      exact ⟨Or.inr hx, a, Or.inl rfl, hs.1 x hx⟩
    · rintro ⟨hx | hx, y, hy, hlt⟩
      · subst hx
        rcases hy with hy | hy
        · omega
        · have := hs.1 y hy
          omega
      · exact hx

theorem one_lt_length_of_two_mem {l : List ℕ} (h : l.Nodup) {a b : ℕ}
    (ha : a ∈ l) (hb : b ∈ l) (hab : a ≠ b) : 1 < l.length := by
  cases l with
  | nil => simp at ha
  | cons x t =>
    cases t with
    | nil =>
      simp at ha hb
      subst ha
      subst hb
      exact absurd rfl hab
    | cons y u => simp

/-- Membership in `ids_to_reassign`: exactly the non-first occurrences of a
duplicated ID. -/
theorem mem_ids_to_reassign {items : List (Item α)} {i : ℕ} :
    i ∈ ids_to_reassign items ↔
      ∃ v, (∃ it, items.get? i = some it ∧ it.id = some v) ∧
        ∃ j, j < i ∧ ∃ it2, items.get? j = some it2 ∧ it2.id = some v := by
  unfold ids_to_reassign conflicts
  rw [List.mem_flatMap]
  constructor
  · rintro ⟨⟨v, l⟩, hmem, hdrop⟩
    obtain ⟨hx, hlen⟩ := List.mem_filter.mp hmem
    have hget := (getA_eq_some_iff_mem (existing_ids_nodupKeys items)).mpr hx
    rw [getA_existing_ids] at hget
    have hl : l = occsFrom v 0 items := by
      by_cases hocc : occsFrom v 0 items = []
      · rw [if_pos hocc] at hget
        cases hget
      · rw [if_neg hocc] at hget
        exact (Option.some_injective _ hget).symm
    subst hl
    rw [mem_drop_one_of_sorted (occsFrom_sorted v items 0)] at hdrop
    obtain ⟨hin, y, hy, hlt⟩ := hdrop
    obtain ⟨k, it, hik, hget1, hid1⟩ := mem_occsFrom.mp hin
    obtain ⟨k2, it2, hjk, hget2, hid2⟩ := mem_occsFrom.mp hy
    exact ⟨v, ⟨it, by rwa [show k = i from by omega] at hget1, hid1⟩,
      y, hlt, it2, by rwa [show k2 = y from by omega] at hget2, hid2⟩
  · rintro ⟨v, ⟨it, hget, hid⟩, j, hj, it2, hget2, hid2⟩
    have hi_in : i ∈ occsFrom v 0 items := mem_occsFrom.mpr ⟨i, it, by omega, hget, hid⟩
    have hj_in : j ∈ occsFrom v 0 items := mem_occsFrom.mpr ⟨j, it2, by omega, hget2, hid2⟩
    refine ⟨(v, occsFrom v 0 items), ?_, ?_⟩
    · rw [List.mem_filter]
      constructor
      · apply (getA_eq_some_iff_mem (existing_ids_nodupKeys items)).mp
        rw [getA_existing_ids]
        rw [if_neg (List.ne_nil_of_mem hi_in)]
      · simp only [decide_eq_true_eq]
        exact one_lt_length_of_two_mem ((occsFrom_sorted v items 0).nodup) hj_in hi_in
          (by omega)
    · exact (mem_drop_one_of_sorted (occsFrom_sorted v items 0)).mpr
        ⟨hi_in, j, hj_in, hj⟩

/-- Membership in the used-ID set: exactly the IDs present in the input. -/
theorem mem_used_ids {items : List (Item α)} {v : ℤ} :
    v ∈ used_ids items ↔ ∃ i it, items.get? i = some it ∧ it.id = some v := by
  unfold used_ids
  rw [List.mem_toFinset, List.mem_map]
  constructor
  · rintro ⟨⟨u, l⟩, hmem, rfl⟩
    have hget := (getA_eq_some_iff_mem (existing_ids_nodupKeys items)).mpr hmem
    rw [getA_existing_ids] at hget
    by_cases hocc : occsFrom u 0 items = []
    · rw [if_pos hocc] at hget
      cases hget
    · obtain ⟨j, hjmem⟩ := List.exists_mem_of_ne_nil _ hocc
      obtain ⟨k, it, hk, hget1, hid1⟩ := mem_occsFrom.mp hjmem
      exact ⟨k, it, hget1, hid1⟩
  · rintro ⟨i, it, hget, hid⟩
    have hi_in : i ∈ occsFrom v 0 items := mem_occsFrom.mpr ⟨i, it, by omega, hget, hid⟩
    refine ⟨(v, occsFrom v 0 items), ?_, rfl⟩
    apply (getA_eq_some_iff_mem (existing_ids_nodupKeys items)).mp
    rw [getA_existing_ids]
    rw [if_neg (List.ne_nil_of_mem hi_in)]

theorem mem_items_without_id {items : List (Item α)} {i : ℕ} :
    i ∈ items_without_id items ↔ ∃ it, items.get? i = some it ∧ it.id = none := by
  rw [items_without_id_eq]
  rw [mem_nonesFrom]
  constructor
  · rintro ⟨k, it, hk, hget, hid⟩
    exact ⟨it, by rwa [show k = i from by omega] at hget, hid⟩
  · rintro ⟨it, hget, hid⟩
    exact ⟨i, it, by omega, hget, hid⟩

theorem mem_needs_list {items : List (Item α)} {i : ℕ} :
    i ∈ needs_list items ↔ i ∈ items_without_id items ∨ i ∈ ids_to_reassign items := by
  unfold needs_list
  rw [(List.perm_insertionSort _ _).mem_iff, List.mem_dedup, List.mem_append]

theorem needs_list_nodup (items : List (Item α)) : (needs_list items).Nodup :=
  (List.perm_insertionSort _ _).nodup_iff.mpr (List.nodup_dedup _)

theorem lt_length_of_mem_needs_list {items : List (Item α)} {i : ℕ}
    (h : i ∈ needs_list items) : ∃ it, items.get? i = some it := by
  rcases mem_needs_list.mp h with h1 | h1
  · obtain ⟨it, hget, _⟩ := mem_items_without_id.mp h1
    exact ⟨it, hget⟩
  · obtain ⟨v, ⟨it, hget, _⟩, _⟩ := mem_ids_to_reassign.mp h1
    exact ⟨it, hget⟩

/-! ### Characterizing the assignment loop of lines 105–108 -/

theorem setItemId_get?_ne (items : List (Item α)) {idx j : ℕ} (v : ℤ) (h : j ≠ idx) :
    (setItemId items idx v).get? j = items.get? j := by
  induction items generalizing idx j with
  | nil => simp [setItemId]
  | cons it rest ih =>
    cases idx with
    | zero =>
      cases j with
      | zero => exact absurd rfl h
      | succ j => simp [setItemId]
    | succ n =>
      cases j with
      | zero => simp [setItemId]
      | succ j =>
        simp only [setItemId, List.get?_cons_succ]
        exact ih (by omega)

theorem setItemId_get?_eq (items : List (Item α)) (idx : ℕ) (v : ℤ) :
    (setItemId items idx v).get? idx =
      (items.get? idx).map (fun it => ⟨some v, it.payload⟩) := by
  induction items generalizing idx with
  | nil => simp [setItemId]
  | cons it rest ih =>
    cases idx with
    | zero => simp [setItemId]
    | succ n =>
      simp only [setItemId, List.get?_cons_succ]
      exact ih n

/-- The values issued by `n` successive `get_next_id` calls, threading the
allocator state exactly as `assignLoop` does. -/
def allocSeq : ℕ → Finset ℤ → ℤ → List ℤ
  | 0, _, _ => []
  | n+1, used, nid =>
    let v := get_next_id used nid
    v :: allocSeq n (insert v used) v

theorem allocSeq_length (n : ℕ) (used : Finset ℤ) (nid : ℤ) :
    (allocSeq n used nid).length = n := by
  induction n generalizing used nid with
  | zero => simp [allocSeq]
  | succ n ih => simp [allocSeq, ih]

theorem allocSeq_mem {n : ℕ} {used : Finset ℤ} {nid : ℤ} :
    ∀ w ∈ allocSeq n used nid, w ∉ used ∧ nid ≤ w := by
  induction n generalizing used nid with
  | zero => simp [allocSeq]
  | succ n ih =>
    intro w hw
    simp only [allocSeq, List.mem_cons] at hw
    obtain ⟨h1, h2, _⟩ := get_next_id_spec used nid
    rcases hw with hw | hw
    · subst hw
      exact ⟨h1, h2⟩
    · obtain ⟨hw1, hw2⟩ := ih w hw
      rw [Finset.mem_insert] at hw1
      push_neg at hw1
      exact ⟨hw1.2, by omega⟩

theorem allocSeq_sorted (n : ℕ) (used : Finset ℤ) (nid : ℤ) :
    (allocSeq n used nid).Sorted (· < ·) := by
  induction n generalizing used nid with
  | zero => simp [allocSeq]
  | succ n ih =>
    simp only [allocSeq]
    rw [List.sorted_cons]
    refine ⟨?_, ih _ _⟩
    intro b hb
    obtain ⟨hb1, hb2⟩ := allocSeq_mem b hb
    rw [Finset.mem_insert] at hb1
    push_neg at hb1
    omega

/-- The loop unrolled: apply each scheduled (index, fresh value) pair. -/
def applyAssignments : List (Item α) → List (ℕ × ℤ) → List (Item α)
  | items, [] => items
  | items, (idx, v) :: rest => applyAssignments (setItemId items idx v) rest

theorem assignLoop_fst (needs : List ℕ) (used : Finset ℤ) (nid : ℤ)
    (items : List (Item α)) :
    (assignLoop needs used nid items).1 =
      applyAssignments items (needs.zip (allocSeq needs.length used nid)) := by
  induction needs generalizing used nid items with
  | nil => simp [assignLoop, allocSeq, applyAssignments]
  | cons idx rest ih =>
    simp only [assignLoop, List.length_cons, allocSeq, List.zip_cons_cons,
      applyAssignments]
    exact ih _ _ _

theorem applyAssignments_get?_of_not_mem {j : ℕ} (items : List (Item α))
    (pairs : List (ℕ × ℤ)) (h : ∀ p ∈ pairs, p.1 ≠ j) :
    (applyAssignments items pairs).get? j = items.get? j := by
  induction pairs generalizing items with
  | nil => rfl
  | cons p rest ih =>
    obtain ⟨idx, v⟩ := p
    simp only [applyAssignments]
    rw [ih _ (fun q hq => h q (List.mem_cons_of_mem _ hq))]
    exact setItemId_get?_ne items v (fun heq => h (idx, v) (List.mem_cons_self _ _) heq.symm)

theorem applyAssignments_get?_of_mem {idx : ℕ} {v : ℤ} (items : List (Item α))
    (pairs : List (ℕ × ℤ)) (hnd : (pairs.map Prod.fst).Nodup)
    (hmem : (idx, v) ∈ pairs) :
    (applyAssignments items pairs).get? idx =
      (items.get? idx).map (fun it => ⟨some v, it.payload⟩) := by
  induction pairs generalizing items with
  | nil => simp at hmem
  | cons p rest ih =>
    obtain ⟨i0, v0⟩ := p
    rw [List.map_cons, List.nodup_cons] at hnd
    rcases List.mem_cons.mp hmem with hhead | htail
    · rw [Prod.ext_iff] at hhead
      obtain ⟨h1, h2⟩ := hhead
      subst h1
      subst h2
      simp only [applyAssignments]
      rw [applyAssignments_get?_of_not_mem _ _ ?hfresh]
      case hfresh =>
        intro q hq heq
        have hq1 : q.1 ∈ rest.map Prod.fst := List.mem_map_of_mem Prod.fst hq
        rw [heq] at hq1
        exact hnd.1 hq1
      exact setItemId_get?_eq items idx v
    · have hne : i0 ≠ idx := by
        intro heq
        have ht1 : idx ∈ rest.map Prod.fst :=
          List.mem_map_of_mem Prod.fst htail
        rw [← heq] at ht1
        exact hnd.1 ht1
      simp only [applyAssignments]
      rw [ih _ hnd.2 htail]
      rw [setItemId_get?_ne items v0 (Ne.symm hne)]

theorem get?_zip_of_get? {β : Type} {l : List ℕ} {l2 : List β} {k : ℕ} {a : ℕ} {b : β}
    (h1 : l.get? k = some a) (h2 : l2.get? k = some b) :
    (l.zip l2).get? k = some (a, b) := by
  induction l generalizing l2 k with
  | nil => simp at h1
  | cons x t ih =>
    cases l2 with
    | nil => simp at h2
    | cons y t2 =>
      cases k with
      | zero =>
        simp at h1 h2
        simp [h1, h2]
      | succ k =>
        simp only [List.get?_cons_succ] at h1 h2
        simpa [List.zip_cons_cons] using ih h1 h2

/-- Frame: indices not scheduled for reassignment are untouched. -/
theorem assignIdsItems_get?_of_not_needs {items : List (Item α)} {i : ℕ} (s : ℤ)
    (h : i ∉ needs_list items) :
    (assignIdsItems s items).get? i = items.get? i := by
  unfold assignIdsItems
  rw [assignLoop_fst]
  apply applyAssignments_get?_of_not_mem
  intro p hp heq
  have hp2 : (p.1, p.2) ∈ (needs_list items).zip
      (allocSeq (needs_list items).length (used_ids items) s) := by simpa using hp
  obtain ⟨hmem, -⟩ := List.of_mem_zip hp2
  rw [heq] at hmem
  exact h hmem

/-- The `k`-th scheduled index receives the `k`-th allocated value. -/
theorem assignIdsItems_get?_at_needs {items : List (Item α)} {k i : ℕ} (s : ℤ)
    (hk : (needs_list items).get? k = some i) :
    ∃ v, (allocSeq (needs_list items).length (used_ids items) s).get? k = some v ∧
      (assignIdsItems s items).get? i =
        (items.get? i).map (fun it => ⟨some v, it.payload⟩) := by
  obtain ⟨hklen, -⟩ := List.get?_eq_some.mp hk
  have hvlen : k < (allocSeq (needs_list items).length (used_ids items) s).length := by
    rw [allocSeq_length]
    exact hklen
  obtain ⟨v, hv⟩ : ∃ v, (allocSeq (needs_list items).length (used_ids items) s).get? k
      = some v := ⟨_, List.get?_eq_get hvlen⟩
  refine ⟨v, hv, ?_⟩
  unfold assignIdsItems
  rw [assignLoop_fst]
  apply applyAssignments_get?_of_mem
  · rw [List.map_fst_zip _ _ (by rw [allocSeq_length])]
    exact needs_list_nodup items
  · exact List.get?_mem (get?_zip_of_get? hk hv)

/-! ### Core correctness of the conflict resolver -/

/-- Case analysis for one output position: a position not scheduled is
untouched; a scheduled position gets a fresh identifier outside the set of
identifiers already in use, the payload untouched. -/
theorem assignIdsItems_cases (s : ℤ) (items : List (Item α)) (i : ℕ) :
    (i ∉ needs_list items → (assignIdsItems s items).get? i = items.get? i) ∧
    (i ∈ needs_list items → ∃ v it, items.get? i = some it ∧
      (assignIdsItems s items).get? i = some ⟨some v, it.payload⟩ ∧
      v ∉ used_ids items) := by
  constructor
  · exact assignIdsItems_get?_of_not_needs s
  · intro hin
    obtain ⟨k, hk⟩ := List.mem_iff_get?.mp hin
    obtain ⟨v, hv, hres⟩ := assignIdsItems_get?_at_needs s hk
    obtain ⟨it, hit⟩ := lt_length_of_mem_needs_list hin
    refine ⟨v, it, hit, ?_, ?_⟩
    · rw [hres, hit]
      rfl
    · exact (allocSeq_mem v (List.get?_mem hv)).1

theorem assignIdsItems_ids_nodup (s : ℤ) (items : List (Item α)) :
    ((assignIdsItems s items).map Item.id).Nodup := by
  rw [List.nodup_iff_get?_ne_get?]
  intro i j hij hjlen heq
  rw [List.get?_map, List.get?_map] at heq
  rw [List.length_map] at hjlen
  obtain ⟨b, hb⟩ : ∃ b, (assignIdsItems s items).get? j = some b :=
    ⟨_, List.get?_eq_get hjlen⟩
  obtain ⟨a, ha⟩ : ∃ a, (assignIdsItems s items).get? i = some a :=
    ⟨_, List.get?_eq_get (by omega)⟩
  rw [ha, hb] at heq
  have hid : a.id = b.id := by simpa using heq
  by_cases hi : i ∈ needs_list items <;> by_cases hj : j ∈ needs_list items
  · obtain ⟨k1, hk1⟩ := List.mem_iff_get?.mp hi
    obtain ⟨k2, hk2⟩ := List.mem_iff_get?.mp hj
    obtain ⟨v1, hv1, hres1⟩ := assignIdsItems_get?_at_needs s hk1
    obtain ⟨v2, hv2, hres2⟩ := assignIdsItems_get?_at_needs s hk2
    rw [ha] at hres1
    rw [hb] at hres2
    obtain ⟨it1, hit1, ha1⟩ : ∃ it1, items.get? i = some it1 ∧
        a = ⟨some v1, it1.payload⟩ := by
      cases hgi : items.get? i with
      | none => rw [hgi] at hres1; cases hres1
      | some it1 =>
        rw [hgi] at hres1
        exact ⟨it1, rfl, by simpa using hres1⟩
    obtain ⟨it2, hit2, hb1⟩ : ∃ it2, items.get? j = some it2 ∧
        b = ⟨some v2, it2.payload⟩ := by
      cases hgj : items.get? j with
      | none => rw [hgj] at hres2; cases hres2
      | some it2 =>
        rw [hgj] at hres2
        exact ⟨it2, rfl, by simpa using hres2⟩
    have hv12 : v1 = v2 := by
      rw [ha1, hb1] at hid
      simpa using hid
    have hk12 : k1 ≠ k2 := by
      intro hkk
      rw [hkk, hk2] at hk1
      simp at hk1
      omega
    apply hk12
    have hk1len : k1 < (allocSeq (needs_list items).length (used_ids items) s).length :=
      (List.get?_eq_some.mp hv1).1
    exact List.get?_inj hk1len ((allocSeq_sorted _ _ _).nodup)
      (by rw [hv1, hv2, hv12])
  · obtain ⟨k1, hk1⟩ := List.mem_iff_get?.mp hi
    obtain ⟨v1, hv1, hres1⟩ := assignIdsItems_get?_at_needs s hk1
    rw [ha] at hres1
    have hfr := assignIdsItems_get?_of_not_needs s hj
    rw [hb] at hfr
    have haid : a.id = some v1 := by
      cases hgi : items.get? i with
      | none => rw [hgi] at hres1; cases hres1
      | some it1 =>
        rw [hgi] at hres1
        have ha2 : a = ⟨some v1, it1.payload⟩ := by simpa using hres1
        rw [ha2]
    have hv1used : v1 ∈ used_ids items :=
      mem_used_ids.mpr ⟨j, b, hfr.symm, by rw [← hid, haid]⟩
    exact absurd hv1used (allocSeq_mem v1 (List.get?_mem hv1)).1
  · obtain ⟨k2, hk2⟩ := List.mem_iff_get?.mp hj
    obtain ⟨v2, hv2, hres2⟩ := assignIdsItems_get?_at_needs s hk2
    rw [hb] at hres2
    have hfr := assignIdsItems_get?_of_not_needs s hi
    rw [ha] at hfr
    have hbid : b.id = some v2 := by
      cases hgj : items.get? j with
      | none => rw [hgj] at hres2; cases hres2
      | some it2 =>
        rw [hgj] at hres2
        have hb2 : b = ⟨some v2, it2.payload⟩ := by simpa using hres2
        rw [hb2]
    have hv2used : v2 ∈ used_ids items :=
      mem_used_ids.mpr ⟨i, a, hfr.symm, by rw [hid, hbid]⟩
    exact absurd hv2used (allocSeq_mem v2 (List.get?_mem hv2)).1
  · have hfra := assignIdsItems_get?_of_not_needs s hi
    have hfrb := assignIdsItems_get?_of_not_needs s hj
    rw [ha] at hfra
    rw [hb] at hfrb
    cases haid : a.id with
    | none =>
      exact hi (mem_needs_list.mpr (Or.inl (mem_items_without_id.mpr
        ⟨a, hfra.symm, haid⟩)))
    | some v =>
      apply hj
      apply mem_needs_list.mpr
      right
      exact mem_ids_to_reassign.mpr
        ⟨v, ⟨b, hfrb.symm, by rw [← hid, haid]⟩, i, hij, a, hfra.symm, haid⟩

/-- C2: one run of `assign_ids` passes its own verification (lines 117–125):
every output item has a non-null ID and the output IDs are pairwise
distinct. -/
theorem assign_ids_ok_unique_nonnull (s : ℤ) (items : List (Item α)) :
    assign_ids s items = Except.ok (assignIdsItems s items) ∧
    (∀ it ∈ assignIdsItems s items, it.id.isSome = true) ∧
    ((assignIdsItems s items).map Item.id).Nodup := by
  have hnodup := assignIdsItems_ids_nodup s items
  have hsome : ∀ it ∈ assignIdsItems s items, it.id.isSome = true := by
    intro it hmem
    obtain ⟨i, hi⟩ := List.mem_iff_get?.mp hmem
    by_cases hneeds : i ∈ needs_list items
    · obtain ⟨v, it2, _, hres, _⟩ := (assignIdsItems_cases s items i).2 hneeds
      rw [hi] at hres
      have h2 : it = ⟨some v, it2.payload⟩ := by simpa using hres
      rw [h2]
      rfl
    · have hframe := (assignIdsItems_cases s items i).1 hneeds
      rw [hi] at hframe
      cases hid : it.id with
      | none =>
        exact absurd (mem_needs_list.mpr (Or.inl (mem_items_without_id.mpr
          ⟨it, hframe.symm, hid⟩))) hneeds
      | some v => rfl
  refine ⟨?_, hsome, hnodup⟩
  unfold assign_ids
  rw [if_pos hnodup, if_neg ?hnone]
  case hnone =>
    rw [List.any_eq_true]
    rintro ⟨it, hmem, hnone⟩
    have := hsome it hmem
    rw [Option.isNone_iff_eq_none] at hnone
    rw [hnone] at this
    cases this

/-- If every item already has an ID and the IDs are pairwise distinct, the
resolver schedules nothing. -/
theorem needs_list_eq_nil_of_clean (items : List (Item α))
    (hsome : ∀ it ∈ items, it.id.isSome = true)
    (hnodup : (items.map Item.id).Nodup) : needs_list items = [] := by
  rw [List.eq_nil_iff_forall_not_mem]
  intro i hi
  rcases mem_needs_list.mp hi with h | h
  · obtain ⟨it, hget, hid⟩ := mem_items_without_id.mp h
    have := hsome it (List.get?_mem hget)
    rw [hid] at this
    cases this
  · obtain ⟨v, ⟨it, hget, hid⟩, j, hj, it2, hget2, hid2⟩ := mem_ids_to_reassign.mp h
    rw [List.nodup_iff_get?_ne_get?] at hnodup
    have hjlen : i < items.length := (List.get?_eq_some.mp hget).1
    apply hnodup j i hj (by rwa [List.length_map])
    rw [List.get?_map, List.get?_map, hget, hget2]
    simp [hid, hid2]

theorem conflicts_eq_nil_of_clean (items : List (Item α))
    (hnodup : (items.map Item.id).Nodup) : conflicts items = [] := by
  rw [List.eq_nil_iff_forall_not_mem]
  rintro ⟨v, l⟩ hmem
  obtain ⟨hx, hlen⟩ := List.mem_filter.mp hmem
  have hget := (getA_eq_some_iff_mem (existing_ids_nodupKeys items)).mpr hx
  rw [getA_existing_ids] at hget
  by_cases hocc : occsFrom v 0 items = []
  · rw [if_pos hocc] at hget
    cases hget
  · rw [if_neg hocc] at hget
    have hl : l = occsFrom v 0 items := (Option.some_injective _ hget).symm
    simp only [decide_eq_true_eq] at hlen
    rw [hl] at hlen
    obtain ⟨a, t, hcons⟩ : ∃ a t, occsFrom v 0 items = a :: t := by
      cases hl2 : occsFrom v 0 items with
      | nil => exact absurd hl2 hocc
      | cons a t => exact ⟨a, t, rfl⟩
    obtain ⟨b, u, ht⟩ : ∃ b u, t = b :: u := by
      cases ht2 : t with
      | nil =>
        rw [hcons, ht2] at hlen
        simp at hlen
      | cons b u => exact ⟨b, u, rfl⟩
    have hbt : b ∈ t := by
      rw [ht]
      exact List.mem_cons_self _ _
    have hain : a ∈ occsFrom v 0 items := by
      rw [hcons]
      exact List.mem_cons_self _ _
    have hbin : b ∈ occsFrom v 0 items := by
      rw [hcons]
      exact List.mem_cons_of_mem _ hbt
    have hsorted := occsFrom_sorted v items 0
    have hab : a < b := by
      rw [hcons, List.sorted_cons] at hsorted
      exact hsorted.1 b hbt
    obtain ⟨k1, it1, hk1, hget1, hid1⟩ := mem_occsFrom.mp hain
    obtain ⟨k2, it2, hk2, hget2, hid2⟩ := mem_occsFrom.mp hbin
    rw [List.nodup_iff_get?_ne_get?] at hnodup
    have hblen : b < items.length := by
      have := (List.get?_eq_some.mp hget2).1
      omega
    apply hnodup a b hab (by rwa [List.length_map])
    rw [List.get?_map, List.get?_map]
    rw [show k1 = a from by omega] at hget1
    rw [show k2 = b from by omega] at hget2
    rw [hget1, hget2]
    simp [hid1, hid2]

/-- C3: `assign_ids` is idempotent — on its own output the second pass finds
no conflicts and no ID-less items, and returns its input unchanged. -/
theorem assign_ids_idempotent (s1 s2 : ℤ) (items : List (Item α)) :
    conflicts (assignIdsItems s1 items) = [] ∧
    items_without_id (assignIdsItems s1 items) = [] ∧
    assignIdsItems s2 (assignIdsItems s1 items) = assignIdsItems s1 items := by
  obtain ⟨-, hsome, hnodup⟩ := assign_ids_ok_unique_nonnull s1 items
  have hwo : items_without_id (assignIdsItems s1 items) = [] := by
    rw [List.eq_nil_iff_forall_not_mem]
    intro i hi
    obtain ⟨it, hget, hid⟩ := mem_items_without_id.mp hi
    have := hsome it (List.get?_mem hget)
    rw [hid] at this
    cases this
  refine ⟨conflicts_eq_nil_of_clean _ hnodup, hwo, ?_⟩
  have hneeds := needs_list_eq_nil_of_clean _ hsome hnodup
  have hdef : assignIdsItems s2 (assignIdsItems s1 items) =
      (assignLoop (needs_list (assignIdsItems s1 items))
        (used_ids (assignIdsItems s1 items)) s2 (assignIdsItems s1 items)).1 := rfl
  rw [hdef, hneeds]
  rfl

/-- One call of the Python closure `get_next_id` together with its state
update: the returned value, the enlarged used set (line 98) and the new
candidate (`next_id` stays at the returned value). -/
def allocCall (st : Finset ℤ × ℤ) : ℤ × Finset ℤ × ℤ :=
  let v := get_next_id st.1 st.2
  (v, insert v st.1, v)

/-- C7: each allocator call returns the smallest integer ≥ the current
candidate outside the used set and marks it used; the values issued by
repeated calls within one run form a monotonically non-decreasing
sequence. -/
theorem allocator_least_monotone (used : Finset ℤ) (nid : ℤ) (n : ℕ) :
    ((allocCall (used, nid)).1 ∉ used ∧ nid ≤ (allocCall (used, nid)).1 ∧
      ∀ x, nid ≤ x → x ∉ used → (allocCall (used, nid)).1 ≤ x) ∧
    (allocCall (used, nid)).2.1 = insert (allocCall (used, nid)).1 used ∧
    allocSeq (n+1) used nid =
      (allocCall (used, nid)).1 ::
        allocSeq n (allocCall (used, nid)).2.1 (allocCall (used, nid)).2.2 ∧
    (allocSeq (n+1) used nid).Sorted (· ≤ ·) := by
  obtain ⟨h1, h2, h3⟩ := get_next_id_spec used nid
  exact ⟨⟨h1, h2, h3⟩, rfl, rfl, (allocSeq_sorted (n+1) used nid).imp le_of_lt⟩

/-- C7 (witness): allocator state {1, 2} with candidate 1 issues 3;
5 is free and ≥ 1, so the issued value is ≤ 5; three successive issued
values are non-decreasing. -/
theorem allocator_least_monotone_witness :
    (allocCall (({1, 2} : Finset ℤ), 1)).1 ∉ ({1, 2} : Finset ℤ) ∧
    (allocCall (({1, 2} : Finset ℤ), 1)).1 ≤ 5 ∧
    (allocSeq 3 ({1, 2} : Finset ℤ) 1).Sorted (· ≤ ·) := by
  have h := allocator_least_monotone {1, 2} 1 2
  exact ⟨h.1.1, h.1.2.2 5 (by decide) (by decide), h.2.2.2⟩

/-- C8: a record whose non-null ID has no earlier occurrence is kept
unchanged; a record with a null ID or a duplicated-earlier ID receives a
fresh ID outside the full set of IDs already in use (so it collides with
no kept ID), its other fields untouched. -/
theorem assign_ids_keep_first_reassign_rest (s : ℤ) (items : List (Item α))
    (i : ℕ) (it : Item α) (hget : items.get? i = some it) :
    (∀ v, it.id = some v →
      (∀ j it2, j < i → items.get? j = some it2 → it2.id ≠ some v) →
      (assignIdsItems s items).get? i = some it) ∧
    ((it.id = none ∨ ∃ v j it2, it.id = some v ∧ j < i ∧
        items.get? j = some it2 ∧ it2.id = some v) →
      ∃ w, (assignIdsItems s items).get? i = some ⟨some w, it.payload⟩ ∧
        w ∉ used_ids items) := by
  constructor
  · intro v hv hfirst
    have hnotneeds : i ∉ needs_list items := by
      intro hin
      rcases mem_needs_list.mp hin with h | h
      · obtain ⟨it2, hget2, hid2⟩ := mem_items_without_id.mp h
        rw [hget] at hget2
        have heq : it = it2 := Option.some_injective _ hget2
        rw [← heq] at hid2
        rw [hv] at hid2
        cases hid2
      · obtain ⟨v2, ⟨it2, hget2, hid2⟩, j, hj, it3, hget3, hid3⟩ :=
          mem_ids_to_reassign.mp h
        rw [hget] at hget2
        have heq : it = it2 := Option.some_injective _ hget2
        rw [← heq, hv] at hid2
        have hv2 : v2 = v := by
          have := Option.some_injective _ hid2.symm
          omega
        rw [hv2] at hid3
        exact hfirst j it3 hj hget3 hid3
    have hframe := (assignIdsItems_cases s items i).1 hnotneeds
    rw [hframe, hget]
  · intro hcond
    have hneeds : i ∈ needs_list items := by
      apply mem_needs_list.mpr
      rcases hcond with h | ⟨v, j, it2, hv, hj, hget2, hid2⟩
      · exact Or.inl (mem_items_without_id.mpr ⟨it, hget, h⟩)
      · exact Or.inr (mem_ids_to_reassign.mpr
          ⟨v, ⟨it, hget, hv⟩, j, hj, it2, hget2, hid2⟩)
    obtain ⟨w, it2, hget2, hres, hwnot⟩ := (assignIdsItems_cases s items i).2 hneeds
    rw [hget] at hget2
    have heq : it = it2 := Option.some_injective _ hget2
    rw [← heq] at hres
    exact ⟨w, hres, hwnot⟩

/-- C8 (witness): Scenario A — `[{id:1, "Skin Care"}, {id:1, "Body Care"}]`:
the first record is kept unchanged and the second receives a fresh ID not
previously in use. -/
theorem assign_ids_keep_first_reassign_rest_witness :
    (assignIdsItems 1 [(⟨some 1, "Skin Care"⟩ : Item String), ⟨some 1, "Body Care"⟩]).get? 0
      = some ⟨some 1, "Skin Care"⟩ ∧
    (∃ w, (assignIdsItems 1
        [(⟨some 1, "Skin Care"⟩ : Item String), ⟨some 1, "Body Care"⟩]).get? 1
      = some ⟨some w, "Body Care"⟩ ∧
      w ∉ used_ids [(⟨some 1, "Skin Care"⟩ : Item String), ⟨some 1, "Body Care"⟩]) := by
  constructor
  · exact (assign_ids_keep_first_reassign_rest 1
      [⟨some 1, "Skin Care"⟩, ⟨some 1, "Body Care"⟩] 0 ⟨some 1, "Skin Care"⟩ rfl).1
      1 rfl (fun j it2 hj _ => absurd hj (by omega))
  · exact (assign_ids_keep_first_reassign_rest 1
      [⟨some 1, "Skin Care"⟩, ⟨some 1, "Body Care"⟩] 1 ⟨some 1, "Body Care"⟩ rfl).2
      (Or.inr ⟨1, 0, ⟨some 1, "Skin Care"⟩, rfl, by omega, rfl, rfl⟩)

/-- C2 (witness): on Scenario A's input, `assign_ids` succeeds, a sample
output item has a non-null ID, and the output IDs are pairwise distinct. -/
theorem assign_ids_ok_unique_nonnull_witness :
    assign_ids 1 [(⟨some 1, "Skin Care"⟩ : Item String), ⟨some 1, "Body Care"⟩]
      = Except.ok (assignIdsItems 1
          [(⟨some 1, "Skin Care"⟩ : Item String), ⟨some 1, "Body Care"⟩]) ∧
    (⟨some 1, "Skin Care"⟩ : Item String).id.isSome = true ∧
    ((assignIdsItems 1
        [(⟨some 1, "Skin Care"⟩ : Item String), ⟨some 1, "Body Care"⟩]).map Item.id).Nodup := by
  have h := assign_ids_ok_unique_nonnull 1
    [(⟨some 1, "Skin Care"⟩ : Item String), ⟨some 1, "Body Care"⟩]
  exact ⟨h.1, h.2.1 ⟨some 1, "Skin Care"⟩ (by decide), h.2.2⟩

end AssignIds

/-! ## Entity Matcher & Reference Rewriter — sync_with_api.py

The loop of `sync_categories` appends to `synced_categories`, `id_mapping`
and the two detail lists in lockstep; it is embedded as one recursion
producing a `SyncEntry` per local record, from which those four outputs are
projected.  `id_mapping` is a Python dict keyed by the old integer IDs; its
assignments in loop order are a left fold of `setA`. -/

namespace Sync

/-- `cat["id"]` as an integer: `none` models the `KeyError` of a missing
key; records with non-integer IDs are outside the model. -/
def getIdZ (o : Obj) : Option ℤ :=
  match getA o "id" with
  | some (Val.prim (Prim.pInt n)) => some n
  | _ => none

/-- `cat.get("name_i18n", {}).get("en", "")`: the English display name.
An absent `name_i18n` or `en` key yields `""`.  An explicit `null` name is
falsy in Python exactly like `""` (`normalize_name` maps both to `""`), so
it is embedded as `""`.  A non-dict `name_i18n` or a non-string `en` would
raise downstream (`none`). -/
def getNameEn (o : Obj) : Option String :=
  match getA o "name_i18n" with
  | none => some ""
  | some (Val.dict m) =>
    match getA m "en" with
    | none => some ""
    | some (Prim.pStr s) => some s
    | some Prim.pNull => some ""
    | some _ => none
  | some (Val.prim _) => none

/-- The normalized name of a record. -/
def normNameOf (o : Obj) : Option String := (getNameEn o).map normalize_name

/-- The loop of `build_api_name_map` (lines 74–79) with the accumulated
map: a later category overwrites an earlier one with the same normalized
name (dict assignment, last wins), and empty normalized names are skipped
(`if normalized:`). -/
def bamGo (acc : List (String × Obj)) : List Obj → Option (List (String × Obj))
  | [] => some acc
  | cat :: rest =>
    match getNameEn cat with
    | none => none
    | some name_en =>
      let normalized := normalize_name name_en
      if normalized = "" then bamGo acc rest
      else bamGo (setA acc normalized cat) rest

/-- `build_api_name_map` (lines 70–80). -/
def build_api_name_map (api_categories : List Obj) : Option (List (String × Obj)) :=
  bamGo [] api_categories

/-- The IDs of the canonical records, in order (`cat["id"]`). -/
def idsOf : List Obj → Option (List ℤ)
  | [] => some []
  | c :: rest => do
    let n ← getIdZ c
    let ns ← idsOf rest
    some (n :: ns)

/-- Line 99: `max((cat["id"] for cat in api_categories), default=0)`. -/
def maxApiId (api_categories : List Obj) : Option ℤ := do
  let ids ← idsOf api_categories
  match ids with
  | [] => pure 0
  | x :: xs => pure (xs.foldl max x)

/-- What the loop of lines 109–149 records for one local record. -/
structure SyncEntry where
  synced_cat : Obj
  old_id : ℤ
  new_id : ℤ
  api_match : Bool
  local_name : String
  api_name : Option String
  is_archived : Val
deriving DecidableEq

/-- Lines 127–131: copy the local record, overwrite `id`, set the internal
match flags. -/
def mkMatched (local_cat api_cat : Obj) (new_id : ℤ) : Obj :=
  setA (setA (setA local_cat "id" (Val.prim (Prim.pInt new_id)))
      "_api_match" (Val.prim (Prim.pBool true)))
    "_api_archived" (getD api_cat "is_archived" (Val.prim (Prim.pBool false)))

/-- Lines 144–146. -/
def mkNew (local_cat : Obj) (new_id : ℤ) : Obj :=
  setA (setA local_cat "id" (Val.prim (Prim.pInt new_id)))
    "_api_match" (Val.prim (Prim.pBool false))

/-- The loop of lines 109–149, threading `next_new_id`. -/
def syncLoop (nameMap : List (String × Obj)) : ℤ → List Obj → Option (List SyncEntry)
  | _, [] => some []
  | next_new_id, local_cat :: rest => do
    let old_id ← getIdZ local_cat
    let local_name ← getNameEn local_cat
    let normalized := normalize_name local_name
    match getA nameMap normalized with
    | some api_cat => do
      let new_id ← getIdZ api_cat
      let api_name ← getNameEn api_cat
      let tail ← syncLoop nameMap next_new_id rest
      some (⟨mkMatched local_cat api_cat new_id, old_id, new_id, true,
        local_name, some api_name,
        getD api_cat "is_archived" (Val.prim (Prim.pBool false))⟩ :: tail)
    | none => do
      let tail ← syncLoop nameMap (next_new_id + 1) rest
      some (⟨mkNew local_cat next_new_id, old_id, next_new_id, false,
        local_name, none, Val.prim (Prim.pBool false)⟩ :: tail)

/-- Lines 96–149: name map, `max_api_id + 1`, then the matching loop. -/
def syncEntries (local_categories api_categories : List Obj) :
    Option (List SyncEntry) := do
  let nameMap ← build_api_name_map api_categories
  let mx ← maxApiId api_categories
  syncLoop nameMap (mx + 1) local_categories

/-- The sort key of line 152 (`lambda x: x["id"]`).  Every record reaching
the sort has just been given an integer `id` by the loop, so the default 0
branch is dead there. -/
def keyId (o : Obj) : ℤ :=
  match getA o "id" with
  | some (Val.prim (Prim.pInt n)) => n
  | _ => 0

/-- Stable insertion into a run sorted by `keyId`: `c` precedes the
elements already in the run (they came later in the original order), so it
passes only strictly smaller keys and stops at the first equal-or-larger
one. -/
def insertById (c : Obj) : List Obj → List Obj
  | [] => [c]
  | d :: rest => if keyId d < keyId c then d :: insertById c rest else c :: d :: rest

/-- Line 152: `synced_categories.sort(key=lambda x: x["id"])` — a stable
sort by the integer ID. -/
def sortById : List Obj → List Obj
  | [] => []
  | c :: rest => insertById c (sortById rest)

/-- Lines 154–156: `for i, cat in enumerate(synced_categories, 1):
cat["sort_order"] = i`. -/
def applySortOrderFrom : ℤ → List Obj → List Obj
  | _, [] => []
  | i, c :: rest =>
    setA c "sort_order" (Val.prim (Prim.pInt i)) :: applySortOrderFrom (i+1) rest

/-- Lines 151–156: sort by ID, then overwrite `sort_order` with the 1-based
position. -/
def finalizeSynced (synced : List Obj) : List Obj :=
  applySortOrderFrom 1 (sortById synced)

/-- The sync report of lines 158–165 (detail dicts kept as entries). -/
structure SyncReport where
  total_local : ℕ
  total_api : ℕ
  matched : ℕ
  new : ℕ
  matched_details : List SyncEntry
  new_details : List SyncEntry
deriving DecidableEq

/-- `sync_categories` (lines 83–167): returns the reconciled collection,
the `old_id → new_id` mapping and the report. -/
def sync_categories (local_categories api_categories : List Obj) :
    Option (List Obj × List (ℤ × ℤ) × SyncReport) := do
  let es ← syncEntries local_categories api_categories
  let synced := es.map SyncEntry.synced_cat
  let id_mapping := es.foldl (fun m e => setA m e.old_id e.new_id) []
  let matchedL := es.filter (fun e => e.api_match)
  let newL := es.filter (fun e => !e.api_match)
  some (finalizeSynced synced, id_mapping,
    ⟨local_categories.length, api_categories.length, matchedL.length, newL.length,
      matchedL, newL⟩)

/-- `update_services_category_ids` (lines 170–185): rewrite `category_id`
through the mapping when the old value is one of its keys; other services
are copied unchanged (a non-integer or absent `category_id` is never a key
of the integer-keyed mapping). -/
def update_services_category_ids (services : List Obj)
    (id_mapping : List (ℤ × ℤ)) : List Obj :=
  services.map (fun service =>
    match getA service "category_id" with
    | some (Val.prim (Prim.pInt cid)) =>
      match getA id_mapping cid with
      | some nid => setA service "category_id" (Val.prim (Prim.pInt nid))
      | none => service
    | _ => service)

/-! ### Claim C5 — the Reference Rewriter -/

theorem getA_mem {κ β : Type} [DecidableEq κ] {m : List (κ × β)} {k : κ} {b : β}
    (h : getA m k = some b) : (k, b) ∈ m := by
  induction m with
  | nil => simp [getA] at h
  | cons p rest ih =>
    obtain ⟨k0, b0⟩ := p
    by_cases h0 : k0 = k
    · subst h0
      rw [getA, if_pos rfl] at h
      have : b0 = b := by simpa using h
      subst this
      exact List.mem_cons_self _ _
    · rw [getA, if_neg h0] at h
      exact List.mem_cons_of_mem _ (ih h)

/-- C5: `update_services_category_ids` replaces `category_id` exactly when
its old value is a key of the mapping and copies the record unchanged
otherwise; consequently every rewritten collection's `category_id` is
either a value of the mapping or was never one of its keys. -/
theorem update_services_category_ids_spec (services : List Obj)
    (id_mapping : List (ℤ × ℤ)) :
    (update_services_category_ids services id_mapping).length = services.length ∧
    (∀ k service, services.get? k = some service →
      (∀ cid nid, getA service "category_id" = some (Val.prim (Prim.pInt cid)) →
        getA id_mapping cid = some nid →
        (update_services_category_ids services id_mapping).get? k =
          some (setA service "category_id" (Val.prim (Prim.pInt nid)))) ∧
      ((∀ cid, getA service "category_id" = some (Val.prim (Prim.pInt cid)) →
          getA id_mapping cid = none) →
        (update_services_category_ids services id_mapping).get? k = some service)) ∧
    (∀ rec ∈ update_services_category_ids services id_mapping, ∀ cid,
      getA rec "category_id" = some (Val.prim (Prim.pInt cid)) →
      (∃ p ∈ id_mapping, p.2 = cid) ∨ getA id_mapping cid = none) := by
  refine ⟨by simp [update_services_category_ids], ?_, ?_⟩
  · intro k service hget
    constructor
    · intro cid nid hcid hmap
      unfold update_services_category_ids
      rw [List.get?_map, hget]
      simp only [Option.map_some']
      simp only [hcid, hmap]
    · intro hnone
      unfold update_services_category_ids
      rw [List.get?_map, hget]
      simp only [Option.map_some']
      cases hcid : getA service "category_id" with
      | none => simp only [hcid]
      | some v =>
        cases v with
        | dict m => simp only [hcid]
        | prim p =>
          cases p with
          | pInt cid => simp only [hcid, hnone cid hcid]
          | pStr s => simp only [hcid]
          | pBool b => simp only [hcid]
          | pNull => simp only [hcid]
  · intro rec hmem cid hcid
    obtain ⟨service, hsv, hrec⟩ := List.mem_map.mp hmem
    by_cases hint : ∃ cid0, getA service "category_id" = some (Val.prim (Prim.pInt cid0))
    · obtain ⟨cid0, hcid0⟩ := hint
      cases hmap : getA id_mapping cid0 with
      | some nid =>
        simp only [hcid0, hmap] at hrec
        rw [← hrec] at hcid
        rw [getA_setA_self] at hcid
        have : nid = cid := by simpa using hcid
        subst this
        exact Or.inl ⟨(cid0, nid), getA_mem hmap, rfl⟩
      | none =>
        simp only [hcid0, hmap] at hrec
        rw [← hrec] at hcid
        rw [hcid0] at hcid
        have : cid0 = cid := by simpa using hcid
        subst this
        exact Or.inr hmap
    · have hrec2 : rec = service := by
        cases hcid0 : getA service "category_id" with
        | none =>
          simp only [hcid0] at hrec
          exact hrec.symm
        | some v =>
          cases v with
          | dict m =>
            simp only [hcid0] at hrec
            exact hrec.symm
          | prim p =>
            cases p with
            | pInt cid0 => exact absurd ⟨cid0, hcid0⟩ hint
            | pStr s =>
              simp only [hcid0] at hrec
              exact hrec.symm
            | pBool b =>
              simp only [hcid0] at hrec
              exact hrec.symm
            | pNull =>
              simp only [hcid0] at hrec
              exact hrec.symm
      rw [hrec2] at hcid
      exact absurd ⟨cid, hcid⟩ hint

/-- C5 (witness): Scenario E — `{category_id: 5}` is rewritten to 12 through
the mapping `{5: 12}`, and `{category_id: 99}` (not a key) is untouched. -/
theorem update_services_category_ids_spec_witness :
    (update_services_category_ids
        [[("category_id", Val.prim (Prim.pInt 5))],
         [("category_id", Val.prim (Prim.pInt 99))]] [(5, 12)]).get? 0 =
      some (setA [("category_id", Val.prim (Prim.pInt 5))] "category_id"
        (Val.prim (Prim.pInt 12))) ∧
    (update_services_category_ids
        [[("category_id", Val.prim (Prim.pInt 5))],
         [("category_id", Val.prim (Prim.pInt 99))]] [(5, 12)]).get? 1 =
      some [("category_id", Val.prim (Prim.pInt 99))] := by
  have h := update_services_category_ids_spec
    [[("category_id", Val.prim (Prim.pInt 5))],
     [("category_id", Val.prim (Prim.pInt 99))]] [(5, 12)]
  constructor
  · exact (h.2.1 0 _ rfl).1 5 12 (by decide) (by decide)
  · refine (h.2.1 1 _ rfl).2 (fun cid hcid => ?_)
    have h0 : getA [("category_id", Val.prim (Prim.pInt 99))] "category_id"
        = some (Val.prim (Prim.pInt 99)) := by decide
    rw [h0] at hcid
    have h1 : (99 : ℤ) = cid := by
      have h2 := Option.some_injective _ hcid
      simpa using h2
    rw [← h1]
    decide

/-! ### Characterizing the matching loop -/

/-- Whether a local record takes the `new` branch of the loop: its
normalized name is not a key of the name map. -/
def isNewLocal (nameMap : List (String × Obj)) (lc : Obj) : Bool :=
  (getA nameMap (((getNameEn lc).map normalize_name).getD "")).isNone

/-- Per-position description of the loop of lines 109–149: entry `k` is
built from local record `k`; a matched record adopts the ID of the name
map's record for its normalized name; a new record gets
`next_new_id + (number of new records before it)`. -/
theorem syncLoop_spec (nameMap : List (String × Obj)) (locals : List Obj) :
    ∀ (nid : ℤ) (es : List SyncEntry), syncLoop nameMap nid locals = some es →
      es.length = locals.length ∧
      ∀ k lc, locals.get? k = some lc →
        ∃ e, es.get? k = some e ∧
          getIdZ lc = some e.old_id ∧
          ∃ local_name, getNameEn lc = some local_name ∧
            ((∃ api_cat, getA nameMap (normalize_name local_name) = some api_cat ∧
                e.api_match = true ∧ getIdZ api_cat = some e.new_id ∧
                e.synced_cat = mkMatched lc api_cat e.new_id) ∨
             (getA nameMap (normalize_name local_name) = none ∧
                e.api_match = false ∧
                e.new_id = nid + ((locals.take k).countP (isNewLocal nameMap) : ℤ) ∧
                e.synced_cat = mkNew lc e.new_id)) := by
  induction locals with
  | nil =>
    intro nid es h
    simp only [syncLoop] at h
    have : es = [] := by simpa using h.symm
    subst this
    exact ⟨rfl, by intro k lc hk; simp at hk⟩
  | cons lc0 rest ih =>
    intro nid es h
    cases h0 : getIdZ lc0 with
    | none => simp [syncLoop, h0] at h
    | some old0 =>
      cases h1 : getNameEn lc0 with
      | none => simp [syncLoop, h0, h1] at h
      | some name0 =>
        have hnew0 : isNewLocal nameMap lc0 =
            (getA nameMap (normalize_name name0)).isNone := by
          simp [isNewLocal, h1]
        cases h2 : getA nameMap (normalize_name name0) with
        | some api_cat =>
          cases h3 : getIdZ api_cat with
          | none => simp [syncLoop, h0, h1, h2, h3] at h
          | some api_id =>
            cases h4 : getNameEn api_cat with
            | none => simp [syncLoop, h0, h1, h2, h3, h4] at h
            | some api_name =>
              cases h5 : syncLoop nameMap nid rest with
              | none => simp [syncLoop, h0, h1, h2, h3, h4, h5] at h
              | some tail =>
                have hes : es = ⟨mkMatched lc0 api_cat api_id, old0, api_id, true,
                    name0, some api_name,
                    getD api_cat "is_archived" (Val.prim (Prim.pBool false))⟩ :: tail := by
                  have := h
                  simp only [syncLoop, h0, h1, h2, h3, h4, h5, Option.bind_eq_bind,
                    Option.some_bind, Option.some.injEq] at this
                  exact this.symm
                subst hes
                obtain ⟨ihlen, ihk⟩ := ih nid tail h5
                constructor
                · simp [ihlen]
                · intro k lc hk
                  cases k with
                  | zero =>
                    have hlc : lc = lc0 := by simpa using hk.symm
                    subst hlc
                    refine ⟨_, rfl, by simpa using h0, name0, h1, Or.inl
                      ⟨api_cat, h2, rfl, by simpa using h3, rfl⟩⟩
                  | succ k =>
                    simp only [List.get?_cons_succ] at hk
                    obtain ⟨e, he, hold, lname, hlname, hcases⟩ := ihk k lc hk
                    refine ⟨e, by simpa using he, hold, lname, hlname, ?_⟩
                    rcases hcases with hmatch | ⟨hn1, hn2, hn3, hn4⟩
                    · exact Or.inl hmatch
                    · refine Or.inr ⟨hn1, hn2, ?_, hn4⟩
                      rw [hn3]
                      have : (lc0 :: rest).take (k+1) = lc0 :: rest.take k := rfl
                      rw [this, List.countP_cons]
                      rw [hnew0, h2]
                      simp
        | none =>
          cases h5 : syncLoop nameMap (nid + 1) rest with
          | none => simp [syncLoop, h0, h1, h2, h5] at h
          | some tail =>
            have hes : es = ⟨mkNew lc0 nid, old0, nid, false, name0, none,
                Val.prim (Prim.pBool false)⟩ :: tail := by
              have := h
              simp only [syncLoop, h0, h1, h2, h5, Option.bind_eq_bind,
                Option.some_bind, Option.some.injEq] at this
              exact this.symm
            subst hes
            obtain ⟨ihlen, ihk⟩ := ih (nid + 1) tail h5
            constructor
            · simp [ihlen]
            · intro k lc hk
              cases k with
              | zero =>
                have hlc : lc = lc0 := by simpa using hk.symm
                subst hlc
                refine ⟨_, rfl, by simpa using h0, name0, h1, Or.inr
                  ⟨h2, rfl, by simp, rfl⟩⟩
              | succ k =>
                simp only [List.get?_cons_succ] at hk
                obtain ⟨e, he, hold, lname, hlname, hcases⟩ := ihk k lc hk
                refine ⟨e, by simpa using he, hold, lname, hlname, ?_⟩
                rcases hcases with hmatch | ⟨hn1, hn2, hn3, hn4⟩
                · exact Or.inl hmatch
                · refine Or.inr ⟨hn1, hn2, ?_, hn4⟩
                  rw [hn3]
                  have ht : (lc0 :: rest).take (k+1) = lc0 :: rest.take k := rfl
                  rw [ht, List.countP_cons]
                  rw [hnew0, h2]
                  simp only [Option.isNone_none, if_pos rfl]
                  push_cast
                  ring

/-! ### Characterizing the name map and the canonical maximum -/

theorem bamGo_preserves_key (apis : List Obj) :
    ∀ acc m, bamGo acc apis = some m →
      ∀ nrm, getA acc nrm ≠ none → getA m nrm ≠ none := by
  induction apis with
  | nil =>
    intro acc m h nrm hk
    simp only [bamGo] at h
    have : acc = m := by simpa using h
    rwa [← this]
  | cons cat rest ih =>
    intro acc m h nrm hk
    cases h0 : getNameEn cat with
    | none => simp [bamGo, h0] at h
    | some name0 =>
      by_cases hnn : normalize_name name0 = ""
      · rw [bamGo, h0] at h
        simp only [hnn, if_pos rfl] at h
        exact ih acc m h nrm hk
      · rw [bamGo, h0] at h
        simp only [if_neg hnn] at h
        refine ih _ m h nrm ?_
        by_cases heq : normalize_name name0 = nrm
        · rw [← heq, getA_setA_self]
          simp
        · rw [getA_setA_ne _ _ _ _ heq]
          exact hk

theorem bamGo_values (apis : List Obj) :
    ∀ acc m, bamGo acc apis = some m →
      ∀ nrm v, getA m nrm = some v →
        getA acc nrm = some v ∨
          (v ∈ apis ∧ normNameOf v = some nrm ∧ nrm ≠ "") := by
  induction apis with
  | nil =>
    intro acc m h nrm v hv
    simp only [bamGo] at h
    have : acc = m := by simpa using h
    rw [this]
    exact Or.inl hv
  | cons cat rest ih =>
    intro acc m h nrm v hv
    cases h0 : getNameEn cat with
    | none => simp [bamGo, h0] at h
    | some name0 =>
      by_cases hnn : normalize_name name0 = ""
      · rw [bamGo, h0] at h
        simp only [hnn, if_pos rfl] at h
        rcases ih acc m h nrm v hv with h1 | ⟨h1, h2, h3⟩
        · exact Or.inl h1
        · exact Or.inr ⟨List.mem_cons_of_mem _ h1, h2, h3⟩
      · rw [bamGo, h0] at h
        simp only [if_neg hnn] at h
        rcases ih _ m h nrm v hv with h1 | ⟨h1, h2, h3⟩
        · by_cases heq : normalize_name name0 = nrm
          · rw [← heq, getA_setA_self] at h1
            have hvcat : v = cat := by simpa using h1.symm
            subst hvcat
            refine Or.inr ⟨List.mem_cons_self _ _, ?_, by rw [← heq]; exact hnn⟩
            rw [normNameOf, h0]
            simp [heq]
          · rw [getA_setA_ne _ _ _ _ heq] at h1
            exact Or.inl h1
        · exact Or.inr ⟨List.mem_cons_of_mem _ h1, h2, h3⟩

theorem bamGo_hit (apis : List Obj) :
    ∀ acc m, bamGo acc apis = some m →
      ∀ nrm, nrm ≠ "" → (∃ api ∈ apis, normNameOf api = some nrm) →
        ∃ w, getA m nrm = some w := by
  induction apis with
  | nil =>
    intro acc m h nrm hne hex
    obtain ⟨api, hmem, -⟩ := hex
    simp at hmem
  | cons cat rest ih =>
    intro acc m h nrm hne hex
    cases h0 : getNameEn cat with
    | none => simp [bamGo, h0] at h
    | some name0 =>
      by_cases hnn : normalize_name name0 = ""
      · rw [bamGo, h0] at h
        simp only [hnn, if_pos rfl] at h
        obtain ⟨api, hmem, hnorm⟩ := hex
        rcases List.mem_cons.mp hmem with rfl | hrest
        · rw [normNameOf, h0] at hnorm
          have : normalize_name name0 = nrm := by simpa using hnorm
          rw [hnn] at this
          exact absurd this.symm hne
        · exact ih acc m h nrm hne ⟨api, hrest, hnorm⟩
      · rw [bamGo, h0] at h
        simp only [if_neg hnn] at h
        obtain ⟨api, hmem, hnorm⟩ := hex
        rcases List.mem_cons.mp hmem with rfl | hrest
        · rw [normNameOf, h0] at hnorm
          have heq : normalize_name name0 = nrm := by simpa using hnorm
          have hkey : getA (setA acc (normalize_name name0) api) nrm ≠ none := by
            rw [← heq, getA_setA_self]
            simp
          have := bamGo_preserves_key rest _ m h nrm hkey
          cases hm : getA m nrm with
          | none => exact absurd hm this
          | some w => exact ⟨w, rfl⟩
        · exact ih _ m h nrm hne ⟨api, hrest, hnorm⟩

theorem bamGo_miss (apis : List Obj) :
    ∀ acc m, bamGo acc apis = some m →
      ∀ nrm, (nrm = "" ∨ ∀ api ∈ apis, normNameOf api ≠ some nrm) →
        getA m nrm = getA acc nrm := by
  induction apis with
  | nil =>
    intro acc m h nrm _
    simp only [bamGo] at h
    have : acc = m := by simpa using h
    rw [this]
  | cons cat rest ih =>
    intro acc m h nrm hcond
    cases h0 : getNameEn cat with
    | none => simp [bamGo, h0] at h
    | some name0 =>
      have hcond' : nrm = "" ∨ ∀ api ∈ rest, normNameOf api ≠ some nrm := by
        rcases hcond with h1 | h1
        · exact Or.inl h1
        · exact Or.inr (fun api hmem => h1 api (List.mem_cons_of_mem _ hmem))
      by_cases hnn : normalize_name name0 = ""
      · rw [bamGo, h0] at h
        simp only [hnn, if_pos rfl] at h
        exact ih acc m h nrm hcond'
      · rw [bamGo, h0] at h
        simp only [if_neg hnn] at h
        rw [ih _ m h nrm hcond']
        have hneq : normalize_name name0 ≠ nrm := by
          intro heq
          rcases hcond with h1 | h1
          · rw [h1] at heq
            exact hnn heq
          · refine h1 cat (List.mem_cons_self _ _) ?_
            rw [normNameOf, h0]
            simp [heq]
        exact getA_setA_ne _ _ _ _ hneq

theorem idsOf_mem (apis : List Obj) :
    ∀ l, idsOf apis = some l →
      ∀ api ∈ apis, ∀ aid, getIdZ api = some aid → aid ∈ l := by
  induction apis with
  | nil =>
    intro l h api hmem
    simp at hmem
  | cons cat rest ih =>
    intro l h api hmem aid haid
    cases h0 : getIdZ cat with
    | none => simp [idsOf, h0] at h
    | some n =>
      cases h1 : idsOf rest with
      | none => simp [idsOf, h0, h1] at h
      | some ns =>
        have hl : l = n :: ns := by
          simp only [idsOf, h0, h1, Option.bind_eq_bind, Option.some_bind,
            Option.some.injEq] at h
          exact h.symm
        subst hl
        rcases List.mem_cons.mp hmem with hcat | hrest
        · subst hcat
          rw [h0] at haid
          have : n = aid := by simpa using haid
          subst this
          exact List.mem_cons_self _ _
        · exact List.mem_cons_of_mem _ (ih ns h1 api hrest aid haid)

theorem le_foldl_max (xs : List ℤ) : ∀ x : ℤ,
    x ≤ xs.foldl max x ∧ ∀ y ∈ xs, y ≤ xs.foldl max x := by
  induction xs with
  | nil => intro x; simp
  | cons y ys ih =>
    intro x
    rw [List.foldl_cons]
    obtain ⟨h1, h2⟩ := ih (max x y)
    refine ⟨le_trans (le_max_left x y) h1, ?_⟩
    intro z hz
    rcases List.mem_cons.mp hz with rfl | hz
    · exact le_trans (le_max_right _ _) h1
    · exact h2 z hz

/-- Every canonical ID is at most `max_api_id`. -/
theorem maxApiId_ge (apis : List Obj) (mx : ℤ) (h : maxApiId apis = some mx) :
    ∀ api ∈ apis, ∀ aid, getIdZ api = some aid → aid ≤ mx := by
  intro api hmem aid haid
  cases hl : idsOf apis with
  | none => simp [maxApiId, hl] at h
  | some l =>
    have haidl := idsOf_mem apis l hl api hmem aid haid
    cases l with
    | nil => simp at haidl
    | cons x xs =>
      have hmx : mx = xs.foldl max x := by
        simp only [maxApiId, hl, Option.bind_eq_bind, Option.some_bind] at h
        simpa using h.symm
      subst hmx
      rcases List.mem_cons.mp haidl with h1 | h1
      · rw [h1]
        exact (le_foldl_max xs x).1
      · exact (le_foldl_max xs x).2 aid h1

theorem getA_mkMatched_id (lc api : Obj) (nid : ℤ) :
    getA (mkMatched lc api nid) "id" = some (Val.prim (Prim.pInt nid)) := by
  unfold mkMatched
  rw [getA_setA_ne _ _ _ _ (by decide), getA_setA_ne _ _ _ _ (by decide), getA_setA_self]

theorem getA_mkNew_id (lc : Obj) (nid : ℤ) :
    getA (mkNew lc nid) "id" = some (Val.prim (Prim.pInt nid)) := by
  unfold mkNew
  rw [getA_setA_ne _ _ _ _ (by decide), getA_setA_self]

/-! ### Claim C4 — the Entity Matcher -/

/-- C4: a local record whose non-empty normalized name equals the
normalized name of some canonical record is matched and adopts that
canonical record's identifier; otherwise — in particular whenever the
normalized name is empty, even if a canonical record also has an empty
normalized name — it is new and its identifier is strictly greater than
every canonical identifier. -/
theorem sync_matching_spec (locals apis : List Obj) (es : List SyncEntry)
    (h : syncEntries locals apis = some es) (k : ℕ) (lc : Obj)
    (hk : locals.get? k = some lc) (lname : String)
    (hname : getNameEn lc = some lname) :
    ((normalize_name lname ≠ "" ∧
        ∃ api ∈ apis, normNameOf api = some (normalize_name lname)) →
      ∃ e api, es.get? k = some e ∧ api ∈ apis ∧
        normNameOf api = some (normalize_name lname) ∧
        getIdZ api = some e.new_id ∧ e.api_match = true ∧
        getA e.synced_cat "id" = some (Val.prim (Prim.pInt e.new_id))) ∧
    ((normalize_name lname = "" ∨
        ∀ api ∈ apis, normNameOf api ≠ some (normalize_name lname)) →
      ∃ e, es.get? k = some e ∧ e.api_match = false ∧
        getA e.synced_cat "id" = some (Val.prim (Prim.pInt e.new_id)) ∧
        ∀ api ∈ apis, ∀ aid, getIdZ api = some aid → aid < e.new_id) := by
  cases hbam : build_api_name_map apis with
  | none => simp [syncEntries, hbam] at h
  | some nameMap =>
    cases hmx : maxApiId apis with
    | none => simp [syncEntries, hbam, hmx] at h
    | some mx =>
      have hloop : syncLoop nameMap (mx + 1) locals = some es := by
        simpa [syncEntries, hbam, hmx] using h
      obtain ⟨-, hspec⟩ := syncLoop_spec nameMap locals (mx + 1) es hloop
      obtain ⟨e, he, hold, lname2, hlname2, hcases⟩ := hspec k lc hk
      have hln : lname2 = lname := by
        rw [hname] at hlname2
        exact (Option.some_injective _ hlname2).symm
      rw [hln] at hcases
      constructor
      · rintro ⟨hne, hex⟩
        obtain ⟨w, hw⟩ := bamGo_hit apis [] nameMap hbam _ hne hex
        rcases hcases with ⟨api_cat, hlook, hmatch, hapiid, hsynced⟩ |
          ⟨hlook, -, -, -⟩
        · rcases bamGo_values apis [] nameMap hbam _ api_cat hlook with hacc | ⟨h1, h2, -⟩
          · simp [getA] at hacc
          · refine ⟨e, api_cat, he, h1, h2, hapiid, hmatch, ?_⟩
            rw [hsynced]
            exact getA_mkMatched_id lc api_cat e.new_id
        · rw [hlook] at hw
          cases hw
      · intro hcond
        have hnone : getA nameMap (normalize_name lname) = none := by
          rw [bamGo_miss apis [] nameMap hbam _ hcond]
          rfl
        rcases hcases with ⟨api_cat, hlook, -⟩ | ⟨-, hmatch, hnid, hsynced⟩
        · rw [hnone] at hlook
          cases hlook
        · refine ⟨e, he, hmatch, ?_, ?_⟩
          · rw [hsynced]
            exact getA_mkNew_id lc e.new_id
          · intro api hmem aid haid
            have hle := maxApiId_ge apis mx hmx api hmem aid haid
            have hcount : (0 : ℤ) ≤ ((locals.take k).countP (isNewLocal nameMap) : ℤ) := by
              positivity
            omega

/-- C4 (witness): Scenario B — local "Massage Therapy" matches canonical
`{id: 12, name: "massage   therapy"}` and adopts ID 12; Scenario C — local
"Brand New Thing" does not match and its new ID exceeds every canonical ID
(max 12). -/
theorem sync_matching_spec_witness :
    (∃ es e api,
      syncEntries
          [[("id", Val.prim (Prim.pInt 5)),
            ("name_i18n", Val.dict [("en", Prim.pStr "Massage Therapy")])]]
          [[("id", Val.prim (Prim.pInt 12)),
            ("name_i18n", Val.dict [("en", Prim.pStr "massage   therapy")])]]
        = some es ∧
      es.get? 0 = some e ∧
      api ∈ [[("id", Val.prim (Prim.pInt 12)),
        ("name_i18n", Val.dict [("en", Prim.pStr "massage   therapy")])]] ∧
      normNameOf api = some (normalize_name "Massage Therapy") ∧
      getIdZ api = some e.new_id ∧ e.api_match = true ∧
      getA e.synced_cat "id" = some (Val.prim (Prim.pInt e.new_id))) ∧
    (∃ es e,
      syncEntries
          [[("id", Val.prim (Prim.pInt 5)),
            ("name_i18n", Val.dict [("en", Prim.pStr "Brand New Thing")])]]
          [[("id", Val.prim (Prim.pInt 12)),
            ("name_i18n", Val.dict [("en", Prim.pStr "massage   therapy")])]]
        = some es ∧
      es.get? 0 = some e ∧ e.api_match = false ∧
      getA e.synced_cat "id" = some (Val.prim (Prim.pInt e.new_id)) ∧
      ∀ api ∈ [[("id", Val.prim (Prim.pInt 12)),
          ("name_i18n", Val.dict [("en", Prim.pStr "massage   therapy")])]],
        ∀ aid, getIdZ api = some aid → aid < e.new_id) := by
  constructor
  · cases hes : syncEntries
        [[("id", Val.prim (Prim.pInt 5)),
          ("name_i18n", Val.dict [("en", Prim.pStr "Massage Therapy")])]]
        [[("id", Val.prim (Prim.pInt 12)),
          ("name_i18n", Val.dict [("en", Prim.pStr "massage   therapy")])]] with
    | none => exact absurd hes (by decide)
    | some es =>
      have h := sync_matching_spec _ _ es hes 0 _ rfl "Massage Therapy" (by decide)
      obtain ⟨e, api, h1, h2, h3, h4, h5, h6⟩ := h.1 ⟨by decide, by decide⟩
      exact ⟨es, e, api, rfl, h1, h2, h3, h4, h5, h6⟩
  · cases hes : syncEntries
        [[("id", Val.prim (Prim.pInt 5)),
          ("name_i18n", Val.dict [("en", Prim.pStr "Brand New Thing")])]]
        [[("id", Val.prim (Prim.pInt 12)),
          ("name_i18n", Val.dict [("en", Prim.pStr "massage   therapy")])]] with
    | none => exact absurd hes (by decide)
    | some es =>
      have h := sync_matching_spec _ _ es hes 0 _ rfl "Brand New Thing" (by decide)
      obtain ⟨e, h1, h2, h3, h4⟩ := h.2 (by decide)
      exact ⟨es, e, rfl, h1, h2, h3, h4⟩

/-! ### Claim C6 — injectivity of the IdentityMapping -/

theorem eq_of_map_nodup {α β : Type} {f : α → β} {l : List α}
    (h : (l.map f).Nodup) {a b : α} (ha : a ∈ l) (hb : b ∈ l)
    (hf : f a = f b) : a = b := by
  induction l with
  | nil => simp at ha
  | cons x t ih =>
    rw [List.map_cons, List.nodup_cons] at h
    rcases List.mem_cons.mp ha with rfl | ha2
    · rcases List.mem_cons.mp hb with rfl | hb2
      · rfl
      · exact absurd (hf ▸ List.mem_map_of_mem f hb2) h.1
    · rcases List.mem_cons.mp hb with rfl | hb2
      · exact absurd (hf ▸ List.mem_map_of_mem f ha2) h.1
      · exact ih h.2 ha2 hb2

theorem getA_append {κ β : Type} [DecidableEq κ] (xs ys : List (κ × β)) (k : κ) :
    getA (xs ++ ys) k =
      match getA xs k with
      | some v => some v
      | none => getA ys k := by
  induction xs with
  | nil => simp [getA]
  | cons p rest ih =>
    obtain ⟨k0, v0⟩ := p
    by_cases h : k0 = k <;> simp [getA, h, ih]

/-- With pairwise-distinct old IDs the dict of line 148 is just the list of
`(old_id, new_id)` pairs in loop order. -/
theorem foldl_setA_mapping (es : List SyncEntry) :
    ∀ acc : List (ℤ × ℤ), (∀ e ∈ es, getA acc e.old_id = none) →
      (es.map SyncEntry.old_id).Nodup →
      es.foldl (fun m e => setA m e.old_id e.new_id) acc =
        acc ++ es.map (fun e => (e.old_id, e.new_id)) := by
  induction es with
  | nil => intro acc _ _; simp
  | cons e rest ih =>
    intro acc hfresh hnodup
    rw [List.map_cons, List.nodup_cons] at hnodup
    rw [List.foldl_cons]
    rw [setA_eq_append_of_getA_eq_none _ _ _ (hfresh e (List.mem_cons_self _ _))]
    rw [ih _ ?hfresh2 hnodup.2]
    · simp
    case hfresh2 =>
      intro e2 he2
      rw [getA_append]
      rw [hfresh e2 (List.mem_cons_of_mem _ he2)]
      have : e2.old_id ≠ e.old_id := by
        intro heq
        exact hnodup.1 (heq ▸ List.mem_map_of_mem SyncEntry.old_id he2)
      simp [getA, this.symm]

theorem insertById_perm (c : Obj) (l : List Obj) :
    (insertById c l).Perm (c :: l) := by
  induction l with
  | nil => simp [insertById]
  | cons d rest ih =>
    rw [insertById]
    split
    · exact ((ih.cons d).trans (List.Perm.swap c d rest)).symm.symm
    · exact List.Perm.refl _

theorem sortById_perm (l : List Obj) : (sortById l).Perm l := by
  induction l with
  | nil => simp [sortById]
  | cons c rest ih =>
    exact (insertById_perm c (sortById rest)).trans (ih.cons c)

theorem map_keyId_applySortOrderFrom (l : List Obj) :
    ∀ i : ℤ, (applySortOrderFrom i l).map keyId = l.map keyId := by
  induction l with
  | nil => intro i; rfl
  | cons c rest ih =>
    intro i
    rw [applySortOrderFrom, List.map_cons, List.map_cons, ih]
    have : keyId (setA c "sort_order" (Val.prim (Prim.pInt i))) = keyId c := by
      unfold keyId
      rw [getA_setA_ne _ _ _ _ (by decide)]
    rw [this]

/-- An element satisfying the predicate strictly before position `k2`
makes the prefix count at `k2` strictly larger than at its position. -/
theorem countP_take_lt {α : Type} {l : List α} {p : α → Bool} {k1 k2 : ℕ}
    (h12 : k1 < k2) {x : α} (hx : l.get? k1 = some x) (hp : p x = true) :
    (l.take k1).countP p < (l.take k2).countP p := by
  have hsucc : l.take (k1 + 1) = l.take k1 ++ [x] := by
    rw [List.take_succ]
    rw [← List.get?_eq_getElem?, hx]
    rfl
  have h1 : (l.take (k1 + 1)).countP p = (l.take k1).countP p + 1 := by
    rw [hsucc, List.countP_append]
    simp [hp]
  have h2 : (l.take (k1 + 1)).countP p ≤ (l.take k2).countP p := by
    have hpre : l.take (k1 + 1) = (l.take k2).take (k1 + 1) := by
      rw [List.take_take]
      congr 1
      omega
    rw [hpre]
    conv_rhs => rw [← List.take_append_drop (k1 + 1) (l.take k2)]
    rw [List.countP_append]
    omega
  omega

/-- Under distinct canonical IDs and pairwise-distinct non-empty local
normalized names, the new IDs issued by one pass are pairwise distinct. -/
theorem syncEntries_newIds_nodup (locals apis : List Obj) (es : List SyncEntry)
    (h : syncEntries locals apis = some es)
    (hapi : (apis.map getIdZ).Nodup)
    (hnames : ∀ i j lci lcj ni, i < j → locals.get? i = some lci →
      locals.get? j = some lcj → normNameOf lci = some ni →
      normNameOf lcj = some ni → ni = "") :
    (es.map SyncEntry.new_id).Nodup := by
  cases hbam : build_api_name_map apis with
  | none => simp [syncEntries, hbam] at h
  | some nameMap =>
  cases hmx : maxApiId apis with
  | none => simp [syncEntries, hbam, hmx] at h
  | some mx =>
  have hloop : syncLoop nameMap (mx + 1) locals = some es := by
    simpa [syncEntries, hbam, hmx] using h
  obtain ⟨hlen, hspec⟩ := syncLoop_spec nameMap locals (mx + 1) es hloop
  rw [List.nodup_iff_get?_ne_get?]
  intro k1 k2 h12 hk2len heq
  rw [List.length_map] at hk2len
  have hk1len : k1 < locals.length := by omega
  have hk2len2 : k2 < locals.length := by omega
  obtain ⟨lc1, hlc1⟩ : ∃ lc, locals.get? k1 = some lc := ⟨_, List.get?_eq_get hk1len⟩
  obtain ⟨lc2, hlc2⟩ : ∃ lc, locals.get? k2 = some lc := ⟨_, List.get?_eq_get hk2len2⟩
  obtain ⟨e1, he1, hold1, n1, hn1, hc1⟩ := hspec k1 lc1 hlc1
  obtain ⟨e2, he2, hold2, n2, hn2, hc2⟩ := hspec k2 lc2 hlc2
  rw [List.get?_map, List.get?_map, he1, he2] at heq
  have hnew : e1.new_id = e2.new_id := by simpa using heq
  have hnn1 : normNameOf lc1 = some (normalize_name n1) := by
    rw [normNameOf, hn1]
    rfl
  have hnn2 : normNameOf lc2 = some (normalize_name n2) := by
    rw [normNameOf, hn2]
    rfl
  rcases hc1 with ⟨api1, hl1, -, hid1, -⟩ | ⟨hl1, -, hv1, -⟩
  · rcases bamGo_values apis [] nameMap hbam _ api1 hl1 with hx | ⟨hm1, hno1, hne1⟩
    · simp [getA] at hx
    rcases hc2 with ⟨api2, hl2, -, hid2, -⟩ | ⟨hl2, -, hv2, -⟩
    · rcases bamGo_values apis [] nameMap hbam _ api2 hl2 with hx | ⟨hm2, hno2, hne2⟩
      · simp [getA] at hx
      have hneq : normalize_name n1 ≠ normalize_name n2 := by
        intro hnrm
        exact hne1 (hnames k1 k2 lc1 lc2 _ h12 hlc1 hlc2 hnn1 (hnrm ▸ hnn2))
      rw [hnew] at hid1
      have hapi12 : api1 = api2 := eq_of_map_nodup hapi hm1 hm2 (by rw [hid1, hid2])
      rw [hapi12] at hno1
      exact hneq (Option.some_injective _ (hno1.symm.trans hno2))
    · have hle : e1.new_id ≤ mx := maxApiId_ge apis mx hmx api1 hm1 _ hid1
      have hpos : (0 : ℤ) ≤ ((locals.take k2).countP (isNewLocal nameMap) : ℤ) := by
        positivity
      omega
  · rcases hc2 with ⟨api2, hl2, -, hid2, -⟩ | ⟨hl2, -, hv2, -⟩
    · rcases bamGo_values apis [] nameMap hbam _ api2 hl2 with hx | ⟨hm2, hno2, hne2⟩
      · simp [getA] at hx
      have hle : e2.new_id ≤ mx := maxApiId_ge apis mx hmx api2 hm2 _ hid2
      have hpos : (0 : ℤ) ≤ ((locals.take k1).countP (isNewLocal nameMap) : ℤ) := by
        positivity
      omega
    · have hp1 : isNewLocal nameMap lc1 = true := by
        simp [isNewLocal, hn1, hl1]
      have hlt := countP_take_lt h12 hlc1 hp1 (l := locals)
      omega

/-- With pairwise-distinct old IDs the entries carry pairwise-distinct
old IDs. -/
theorem syncEntries_oldIds_nodup (locals apis : List Obj) (es : List SyncEntry)
    (h : syncEntries locals apis = some es)
    (hold : (locals.map getIdZ).Nodup) :
    (es.map SyncEntry.old_id).Nodup := by
  cases hbam : build_api_name_map apis with
  | none => simp [syncEntries, hbam] at h
  | some nameMap =>
  cases hmx : maxApiId apis with
  | none => simp [syncEntries, hbam, hmx] at h
  | some mx =>
  have hloop : syncLoop nameMap (mx + 1) locals = some es := by
    simpa [syncEntries, hbam, hmx] using h
  obtain ⟨hlen, hspec⟩ := syncLoop_spec nameMap locals (mx + 1) es hloop
  rw [List.nodup_iff_get?_ne_get?]
  intro k1 k2 h12 hk2len heq
  rw [List.length_map] at hk2len
  have hk1len : k1 < locals.length := by omega
  have hk2len2 : k2 < locals.length := by omega
  obtain ⟨lc1, hlc1⟩ : ∃ lc, locals.get? k1 = some lc := ⟨_, List.get?_eq_get hk1len⟩
  obtain ⟨lc2, hlc2⟩ : ∃ lc, locals.get? k2 = some lc := ⟨_, List.get?_eq_get hk2len2⟩
  obtain ⟨e1, he1, hold1, -⟩ := hspec k1 lc1 hlc1
  obtain ⟨e2, he2, hold2, -⟩ := hspec k2 lc2 hlc2
  rw [List.get?_map, List.get?_map, he1, he2] at heq
  have holdeq : e1.old_id = e2.old_id := by simpa using heq
  rw [List.nodup_iff_get?_ne_get?] at hold
  apply hold k1 k2 h12 (by rwa [List.length_map])
  rw [List.get?_map, List.get?_map, hlc1, hlc2]
  simp only [Option.map_some']
  rw [hold1, hold2, holdeq]

/-- C6 (amended): assuming pairwise-distinct old local identifiers AND
pairwise-distinct canonical identifiers AND that no two local records share
the same non-empty normalized name, the IdentityMapping of one sync pass is
one-to-one and the identifiers of the reconciled output collection are
pairwise distinct.  (Without the extra assumptions this fails: see the
counterexample.) -/
theorem sync_mapping_injective (locals apis : List Obj) (out : List Obj)
    (mp : List (ℤ × ℤ)) (rp : SyncReport)
    (h : sync_categories locals apis = some (out, mp, rp))
    (hold : (locals.map getIdZ).Nodup)
    (hapi : (apis.map getIdZ).Nodup)
    (hnames : ∀ i j lci lcj ni, i < j → locals.get? i = some lci →
      locals.get? j = some lcj → normNameOf lci = some ni →
      normNameOf lcj = some ni → ni = "") :
    (∀ p ∈ mp, ∀ q ∈ mp, p.2 = q.2 → p.1 = q.1) ∧
    (out.map keyId).Nodup := by
  cases hes : syncEntries locals apis with
  | none => simp [sync_categories, hes] at h
  | some es =>
  have h' : (finalizeSynced (es.map SyncEntry.synced_cat),
      es.foldl (fun m e => setA m e.old_id e.new_id) [],
      (⟨locals.length, apis.length, (es.filter (fun e => e.api_match)).length,
        (es.filter (fun e => !e.api_match)).length,
        es.filter (fun e => e.api_match),
        es.filter (fun e => !e.api_match)⟩ : SyncReport)) = (out, mp, rp) := by
    simpa [sync_categories, hes] using h
  have h1 : finalizeSynced (es.map SyncEntry.synced_cat) = out := congrArg Prod.fst h'
  have h2 : es.foldl (fun m e => setA m e.old_id e.new_id) [] = mp :=
    congrArg (fun t => t.2.1) h'
  have hnewnodup := syncEntries_newIds_nodup locals apis es hes hapi hnames
  have holdnodup := syncEntries_oldIds_nodup locals apis es hes hold
  have hmp : mp = es.map (fun e => (e.old_id, e.new_id)) := by
    rw [← h2, foldl_setA_mapping es [] (fun e _ => by simp [getA]) holdnodup]
    simp
  constructor
  · intro p hp q hq hpq
    rw [hmp] at hp hq
    obtain ⟨e1, he1, hpe⟩ := List.mem_map.mp hp
    obtain ⟨e2, he2, hqe⟩ := List.mem_map.mp hq
    rw [← hpe, ← hqe] at hpq
    have he12 : e1 = e2 := eq_of_map_nodup hnewnodup he1 he2 (by simpa using hpq)
    rw [← hpe, ← hqe, he12]
  · rw [← h1]
    unfold finalizeSynced
    rw [map_keyId_applySortOrderFrom]
    rw [((sortById_perm (es.map SyncEntry.synced_cat)).map keyId).nodup_iff]
    rw [List.map_map]
    have hcong : es.map (keyId ∘ SyncEntry.synced_cat) = es.map SyncEntry.new_id := by
      apply List.map_congr_left
      intro e he
      cases hbam : build_api_name_map apis with
      | none => simp [syncEntries, hbam] at hes
      | some nameMap =>
      cases hmx : maxApiId apis with
      | none => simp [syncEntries, hbam, hmx] at hes
      | some mx =>
      have hloop : syncLoop nameMap (mx + 1) locals = some es := by
        simpa [syncEntries, hbam, hmx] using hes
      obtain ⟨hlen, hspec⟩ := syncLoop_spec nameMap locals (mx + 1) es hloop
      obtain ⟨k, hk⟩ := List.mem_iff_get?.mp he
      have hklen : k < locals.length := by
        rw [← hlen]
        exact (List.get?_eq_some.mp hk).1
      obtain ⟨lc, hlc⟩ : ∃ lc, locals.get? k = some lc := ⟨_, List.get?_eq_get hklen⟩
      obtain ⟨e2, he2, -, n2, -, hc⟩ := hspec k lc hlc
      rw [hk] at he2
      have hee : e = e2 := Option.some_injective _ he2
      subst hee
      rcases hc with ⟨api, -, -, -, hsync⟩ | ⟨-, -, -, hsync⟩
      · show keyId e.synced_cat = e.new_id
        rw [hsync]
        simp [keyId, getA_mkMatched_id]
      · show keyId e.synced_cat = e.new_id
        rw [hsync]
        simp [keyId, getA_mkNew_id]
    rw [hcong]
    exact hnewnodup

/-- C6 (counterexample): the locals `{id:1, name:"A"}` and `{id:2, name:"a"}`
have pairwise-distinct old identifiers, yet both normalize to `"a"` and
match the one canonical record `{id:10, name:"A"}`: the mapping
`{1: 10, 2: 10}` is not one-to-one and the reconciled output IDs `[10, 10]`
are not pairwise distinct. -/
theorem sync_mapping_not_injective :
    (([[("id", Val.prim (Prim.pInt 1)), ("name_i18n", Val.dict [("en", Prim.pStr "A")])],
       [("id", Val.prim (Prim.pInt 2)), ("name_i18n", Val.dict [("en", Prim.pStr "a")])]] :
        List Obj).map getIdZ).Nodup ∧
    ((sync_categories
        [[("id", Val.prim (Prim.pInt 1)), ("name_i18n", Val.dict [("en", Prim.pStr "A")])],
         [("id", Val.prim (Prim.pInt 2)), ("name_i18n", Val.dict [("en", Prim.pStr "a")])]]
        [[("id", Val.prim (Prim.pInt 10)), ("name_i18n", Val.dict [("en", Prim.pStr "A")])]]).map
      (fun t => (t.2.1, t.1.map keyId))) = some ([(1, 10), (2, 10)], [10, 10]) ∧
    (1 : ℤ) ≠ 2 ∧ ¬ ([(10 : ℤ), 10]).Nodup := by
  exact ⟨by decide, by decide, by decide, by decide⟩

/-- Input records for the C6 witness. -/
def c6wLoc0 : Obj :=
  [("id", Val.prim (Prim.pInt 1)), ("name_i18n", Val.dict [("en", Prim.pStr "Skin")])]

def c6wLoc1 : Obj :=
  [("id", Val.prim (Prim.pInt 2)), ("name_i18n", Val.dict [("en", Prim.pStr "Body")])]

def c6wApi : Obj :=
  [("id", Val.prim (Prim.pInt 10)), ("name_i18n", Val.dict [("en", Prim.pStr "skin")])]

/-- C6 (witness for the amended theorem): with distinct old IDs, distinct
canonical IDs and distinct non-empty normalized names, the mapping of one
pass is injective and the output IDs are pairwise distinct. -/
theorem sync_mapping_injective_witness :
    ∃ out mp rp, sync_categories [c6wLoc0, c6wLoc1] [c6wApi] = some (out, mp, rp) ∧
      (∀ p ∈ mp, ∀ q ∈ mp, p.2 = q.2 → p.1 = q.1) ∧ (out.map keyId).Nodup := by
  cases h : sync_categories [c6wLoc0, c6wLoc1] [c6wApi] with
  | none => exact absurd h (by decide)
  | some t =>
    obtain ⟨out, mp, rp⟩ := t
    refine ⟨out, mp, rp, rfl, ?_⟩
    refine sync_mapping_injective [c6wLoc0, c6wLoc1] [c6wApi] out mp rp h
      (by decide) (by decide) ?_
    intro i j lci lcj ni hij hgi hgj hni hnj
    exfalso
    cases j with
    | zero => omega
    | succ j1 =>
      cases j1 with
      | zero =>
        have hi0 : i = 0 := by omega
        subst hi0
        have h0 : ([c6wLoc0, c6wLoc1] : List Obj).get? 0 = some c6wLoc0 := rfl
        have h1 : ([c6wLoc0, c6wLoc1] : List Obj).get? 1 = some c6wLoc1 := rfl
        rw [h0] at hgi
        rw [h1] at hgj
        have hlci : lci = c6wLoc0 := (Option.some_injective _ hgi).symm
        have hlcj : lcj = c6wLoc1 := (Option.some_injective _ hgj).symm
        subst hlci
        subst hlcj
        have hs : normNameOf c6wLoc0 = some "skin" := by decide
        have hb : normNameOf c6wLoc1 = some "body" := by decide
        rw [hs] at hni
        rw [hb] at hnj
        have e1 : "skin" = ni := Option.some_injective _ hni
        have e2 : "body" = ni := Option.some_injective _ hnj
        have : ("skin" : String) = "body" := e1.trans e2.symm
        exact absurd this (by decide)
      | succ j2 =>
        have : ([c6wLoc0, c6wLoc1] : List Obj).get? (j2 + 2) = none := rfl
        rw [this] at hgj
        cases hgj

/-! ### Claim C10 — frame of the sync pass -/

theorem getA_mkMatched_other (lc api : Obj) (nid : ℤ) (f : String)
    (h1 : f ≠ "id") (h3 : f ≠ "_api_match") (h4 : f ≠ "_api_archived") :
    getA (mkMatched lc api nid) f = getA lc f := by
  unfold mkMatched
  rw [getA_setA_ne _ _ _ _ (Ne.symm h4), getA_setA_ne _ _ _ _ (Ne.symm h3),
    getA_setA_ne _ _ _ _ (Ne.symm h1)]

theorem getA_mkNew_other (lc : Obj) (nid : ℤ) (f : String)
    (h1 : f ≠ "id") (h3 : f ≠ "_api_match") :
    getA (mkNew lc nid) f = getA lc f := by
  unfold mkNew
  rw [getA_setA_ne _ _ _ _ (Ne.symm h3), getA_setA_ne _ _ _ _ (Ne.symm h1)]

theorem mem_applySortOrderFrom {l : List Obj} {rec : Obj} :
    ∀ {i : ℤ}, rec ∈ applySortOrderFrom i l →
      ∃ s ∈ l, ∃ v, rec = setA s "sort_order" v := by
  induction l with
  | nil => intro i h; simp [applySortOrderFrom] at h
  | cons c rest ih =>
    intro i h
    rcases List.mem_cons.mp h with h1 | h2
    · exact ⟨c, List.mem_cons_self _ _, _, h1⟩
    · obtain ⟨s, hs, v, hv⟩ := ih h2
      exact ⟨s, List.mem_cons_of_mem _ hs, v, hv⟩

theorem applySortOrderFrom_get? (l : List Obj) :
    ∀ (i : ℤ) (k : ℕ) (rec : Obj), (applySortOrderFrom i l).get? k = some rec →
      getA rec "sort_order" = some (Val.prim (Prim.pInt (i + k))) := by
  induction l with
  | nil => intro i k rec h; simp [applySortOrderFrom] at h
  | cons c rest ih =>
    intro i k rec h
    cases k with
    | zero =>
      have : rec = setA c "sort_order" (Val.prim (Prim.pInt i)) := by
        simpa [applySortOrderFrom] using h.symm
      rw [this, getA_setA_self]
      norm_num
    | succ k =>
      simp only [applySortOrderFrom, List.get?_cons_succ] at h
      have h2 := ih (i + 1) k rec h
      have h3 : (i + 1) + (k : ℤ) = i + ((k : ℕ) + 1 : ℕ) := by
        push_cast
        omega
      rw [h2, h3]

/-- C10 (counterexample): the matched local record
`{id:1, name:"A", sort_order:5}` has `sort_order` absent from the canonical
record, yet the sync pass overwrites it with the record's 1-based position:
the output `sort_order` is 1, not the local 5 (lines 154–156). -/
theorem sync_sort_order_not_preserved :
    ((sync_categories
        [[("id", Val.prim (Prim.pInt 1)),
          ("name_i18n", Val.dict [("en", Prim.pStr "A")]),
          ("sort_order", Val.prim (Prim.pInt 5))]]
        [[("id", Val.prim (Prim.pInt 10)),
          ("name_i18n", Val.dict [("en", Prim.pStr "A")])]]).map
      (fun t => t.1.map (fun r => getA r "sort_order")))
      = some [some (Val.prim (Prim.pInt 1))] ∧
    getA [("id", Val.prim (Prim.pInt 1)),
      ("name_i18n", Val.dict [("en", Prim.pStr "A")]),
      ("sort_order", Val.prim (Prim.pInt 5))] "sort_order"
      = some (Val.prim (Prim.pInt 5)) ∧
    getA [("id", Val.prim (Prim.pInt 10)),
      ("name_i18n", Val.dict [("en", Prim.pStr "A")])] "sort_order" = none ∧
    Val.prim (Prim.pInt 1) ≠ Val.prim (Prim.pInt 5) := by
  exact ⟨by decide, by decide, by decide, by decide⟩

theorem applySortOrderFrom_length (l : List Obj) :
    ∀ i : ℤ, (applySortOrderFrom i l).length = l.length := by
  induction l with
  | nil => intro i; rfl
  | cons c rest ih =>
    intro i
    simp only [applySortOrderFrom, List.length_cons, ih]

theorem applySortOrderFrom_mem_image {l : List Obj} {s : Obj} :
    ∀ i : ℤ, s ∈ l → ∃ rec ∈ applySortOrderFrom i l, ∃ v, rec = setA s "sort_order" v := by
  induction l with
  | nil => intro i hs; simp at hs
  | cons c rest ih =>
    intro i hs
    rcases List.mem_cons.mp hs with rfl | h2
    · exact ⟨setA s "sort_order" (Val.prim (Prim.pInt i)), List.mem_cons_self _ _, _, rfl⟩
    · obtain ⟨rec, hrec, v, hv⟩ := ih (i + 1) h2
      exact ⟨rec, List.mem_cons_of_mem _ hrec, v, hv⟩

/-- C10 (amended): the sync pass rewrites only `id`, `sort_order` and the
internal `_api_match`/`_api_archived` flags.  The reconciled output has one
record per local record; every local record has an output record agreeing
with it on every other field — regardless of whether the field is listed in
`protected_fields` — and conversely every output record agrees with some
local record on those fields; `sort_order`, however, although absent from
the canonical record, is overwritten with the record's 1-based position in
the ID-sorted output (lines 154–156). -/
theorem sync_frame_fields (locals apis out : List Obj) (mp : List (ℤ × ℤ))
    (rp : SyncReport) (h : sync_categories locals apis = some (out, mp, rp)) :
    out.length = locals.length ∧
    (∀ k lc, locals.get? k = some lc → ∃ rec ∈ out, ∀ f : String,
      f ≠ "id" → f ≠ "sort_order" → f ≠ "_api_match" → f ≠ "_api_archived" →
      getA rec f = getA lc f) ∧
    (∀ rec ∈ out, ∃ lc ∈ locals, ∀ f : String,
      f ≠ "id" → f ≠ "sort_order" → f ≠ "_api_match" → f ≠ "_api_archived" →
      getA rec f = getA lc f) ∧
    (∀ (k : ℕ) (rec : Obj), out.get? k = some rec →
      getA rec "sort_order" = some (Val.prim (Prim.pInt (k + 1)))) := by
  cases hes : syncEntries locals apis with
  | none => simp [sync_categories, hes] at h
  | some es =>
  have h' : (finalizeSynced (es.map SyncEntry.synced_cat),
      es.foldl (fun m e => setA m e.old_id e.new_id) [],
      (⟨locals.length, apis.length, (es.filter (fun e => e.api_match)).length,
        (es.filter (fun e => !e.api_match)).length,
        es.filter (fun e => e.api_match),
        es.filter (fun e => !e.api_match)⟩ : SyncReport)) = (out, mp, rp) := by
    simpa [sync_categories, hes] using h
  have h1 : finalizeSynced (es.map SyncEntry.synced_cat) = out := congrArg Prod.fst h'
  cases hbam : build_api_name_map apis with
  | none => simp [syncEntries, hbam] at hes
  | some nameMap =>
  cases hmx : maxApiId apis with
  | none => simp [syncEntries, hbam, hmx] at hes
  | some mx =>
  have hloop : syncLoop nameMap (mx + 1) locals = some es := by
    simpa [syncEntries, hbam, hmx] using hes
  obtain ⟨hlen, hspec⟩ := syncLoop_spec nameMap locals (mx + 1) es hloop
  have hentry : ∀ k lc, locals.get? k = some lc → ∃ e, es.get? k = some e ∧
      ∀ f : String, f ≠ "id" → f ≠ "_api_match" → f ≠ "_api_archived" →
        getA e.synced_cat f = getA lc f := by
    intro k lc hlc
    obtain ⟨e, he, -, n2, -, hc⟩ := hspec k lc hlc
    refine ⟨e, he, ?_⟩
    intro f hid hmatch harch
    rcases hc with ⟨api, -, -, -, hsync⟩ | ⟨-, -, -, hsync⟩
    · rw [hsync]
      exact getA_mkMatched_other lc api e.new_id f hid hmatch harch
    · rw [hsync]
      exact getA_mkNew_other lc e.new_id f hid hmatch
  refine ⟨?_, ?_, ?_, ?_⟩
  · rw [← h1]
    unfold finalizeSynced
    rw [applySortOrderFrom_length]
    rw [(sortById_perm _).length_eq]
    rw [List.length_map, hlen]
  · intro k lc hlc
    obtain ⟨e, he, hagree⟩ := hentry k lc hlc
    have hmem : e.synced_cat ∈ es.map SyncEntry.synced_cat :=
      List.mem_map_of_mem _ (List.get?_mem he)
    have hmem2 : e.synced_cat ∈ sortById (es.map SyncEntry.synced_cat) :=
      (sortById_perm _).mem_iff.mpr hmem
    obtain ⟨rec, hrec, v, hv⟩ := applySortOrderFrom_mem_image 1 hmem2
    refine ⟨rec, ?_, ?_⟩
    · rw [← h1]
      unfold finalizeSynced
      exact hrec
    · intro f hid hso hmatch harch
      rw [hv, getA_setA_ne _ _ _ _ (Ne.symm hso)]
      exact hagree f hid hmatch harch
  · intro rec hrec
    rw [← h1] at hrec
    unfold finalizeSynced at hrec
    obtain ⟨s, hs, v, hv⟩ := mem_applySortOrderFrom hrec
    have hs2 : s ∈ es.map SyncEntry.synced_cat :=
      (sortById_perm (es.map SyncEntry.synced_cat)).mem_iff.mp hs
    obtain ⟨e, he, hse⟩ := List.mem_map.mp hs2
    obtain ⟨k, hk⟩ := List.mem_iff_get?.mp he
    have hklen : k < locals.length := by
      rw [← hlen]
      exact (List.get?_eq_some.mp hk).1
    obtain ⟨lc, hlc⟩ : ∃ lc, locals.get? k = some lc := ⟨_, List.get?_eq_get hklen⟩
    obtain ⟨e2, he2, hagree⟩ := hentry k lc hlc
    rw [hk] at he2
    have hee : e = e2 := Option.some_injective _ he2
    subst hee
    refine ⟨lc, List.get?_mem hlc, ?_⟩
    intro f hid hso hmatch harch
    rw [hv, getA_setA_ne _ _ _ _ (Ne.symm hso), ← hse]
    exact hagree f hid hmatch harch
  · intro k rec hrec
    rw [← h1] at hrec
    unfold finalizeSynced at hrec
    have h2 := applySortOrderFrom_get? _ 1 k rec hrec
    have h3 : (1 : ℤ) + (k : ℤ) = (k : ℤ) + 1 := by omega
    rw [h3] at h2
    exact h2

/-- C10 (witness): the one matched local record `{id:1, name:"A",
price:100}` has an output record keeping its `price` field, and the
output's `sort_order` values are the 1-based positions. -/
theorem sync_frame_fields_witness :
    ∃ out mp rp,
      sync_categories
          [[("id", Val.prim (Prim.pInt 1)),
            ("name_i18n", Val.dict [("en", Prim.pStr "A")]),
            ("price", Val.prim (Prim.pInt 100))]]
          [[("id", Val.prim (Prim.pInt 10)),
            ("name_i18n", Val.dict [("en", Prim.pStr "A")])]]
        = some (out, mp, rp) ∧
      out.length = 1 ∧
      (∀ k lc, ([[("id", Val.prim (Prim.pInt 1)),
          ("name_i18n", Val.dict [("en", Prim.pStr "A")]),
          ("price", Val.prim (Prim.pInt 100))]] : List Obj).get? k = some lc →
        ∃ rec ∈ out, ∀ f : String,
          f ≠ "id" → f ≠ "sort_order" → f ≠ "_api_match" → f ≠ "_api_archived" →
          getA rec f = getA lc f) ∧
      (∀ rec ∈ out, ∃ lc ∈ [[("id", Val.prim (Prim.pInt 1)),
          ("name_i18n", Val.dict [("en", Prim.pStr "A")]),
          ("price", Val.prim (Prim.pInt 100))]], ∀ f : String,
        f ≠ "id" → f ≠ "sort_order" → f ≠ "_api_match" → f ≠ "_api_archived" →
        getA rec f = getA lc f) ∧
      (∀ (k : ℕ) (rec : Obj), out.get? k = some rec →
        getA rec "sort_order" = some (Val.prim (Prim.pInt (k + 1)))) := by
  cases h : sync_categories
      [[("id", Val.prim (Prim.pInt 1)),
        ("name_i18n", Val.dict [("en", Prim.pStr "A")]),
        ("price", Val.prim (Prim.pInt 100))]]
      [[("id", Val.prim (Prim.pInt 10)),
        ("name_i18n", Val.dict [("en", Prim.pStr "A")])]] with
  | none => exact absurd h (by decide)
  | some t =>
    obtain ⟨out, mp, rp⟩ := t
    obtain ⟨hl, hfwd, hback, hso⟩ := sync_frame_fields _ _ out mp rp h
    exact ⟨out, mp, rp, rfl, by rw [hl]; rfl, hfwd, hback, hso⟩

end Sync

/-! ## Override-Aware Merger (spec §4.6)

The field-by-field merge with `protected_fields` is not implemented under
src/ — the schema merely declares the per-record `overridden_fields` lists
(models.py and pydantic_models.py: "Fields manually overridden, won't be
updated during sync") — so it is modelled from the spec here. -/

namespace Merger

/-- The per-field audit decision of the merger. -/
inductive MergeDecision : Type
  | kept_local : MergeDecision
  | adopted_canonical : MergeDecision
  | unchanged : MergeDecision
deriving DecidableEq

/-- Modelled from the spec: the per-field loop of the Override-Aware Merger
(§4.6), missing from src/.  For each field present in the canonical record,
in order: a field listed in `protected_fields` keeps the local value
(`kept_local`); otherwise a canonical value differing from the local value
(or a locally absent field) is adopted (`adopted_canonical`), an identical
one leaves the record unchanged (`unchanged`).  Fields not present in the
canonical record are never touched. -/
def mergeGo (protected_fields : List String) :
    Obj → List (String × Val) → Obj × List (String × MergeDecision)
  | lr, [] => (lr, [])
  | lr, (f, cv) :: rest =>
    let step : Obj × MergeDecision :=
      if f ∈ protected_fields then (lr, MergeDecision.kept_local)
      else if getA lr f = some cv then (lr, MergeDecision.unchanged)
      else (setA lr f cv, MergeDecision.adopted_canonical)
    let next := mergeGo protected_fields step.1 rest
    (next.1, (f, step.2) :: next.2)

/-- Modelled from the spec: the Override-Aware Merger on a matched pair —
the merged record plus the ordered list of `MergeDecision`s. -/
def merge_record (local_rec canonical : Obj) (protected_fields : List String) :
    Obj × List (String × MergeDecision) :=
  mergeGo protected_fields local_rec canonical

theorem mergeGo_cons (prot : List String) (lr : Obj) (f : String) (cv : Val)
    (rest : List (String × Val)) :
    mergeGo prot lr ((f, cv) :: rest) =
      if f ∈ prot then
        ((mergeGo prot lr rest).1,
          (f, MergeDecision.kept_local) :: (mergeGo prot lr rest).2)
      else if getA lr f = some cv then
        ((mergeGo prot lr rest).1,
          (f, MergeDecision.unchanged) :: (mergeGo prot lr rest).2)
      else
        ((mergeGo prot (setA lr f cv) rest).1,
          (f, MergeDecision.adopted_canonical) ::
            (mergeGo prot (setA lr f cv) rest).2) := by
  by_cases h1 : f ∈ prot
  · simp [mergeGo, h1]
  · by_cases h2 : getA lr f = some cv <;> simp [mergeGo, h1, h2]

/-- Fields outside the canonical field list are never modified. -/
theorem mergeGo_frame (prot : List String) (flds : List (String × Val)) :
    ∀ (lr : Obj) (g : String), g ∉ flds.map Prod.fst →
      getA (mergeGo prot lr flds).1 g = getA lr g := by
  induction flds with
  | nil => intro lr g _; rfl
  | cons p rest ih =>
    obtain ⟨f, cv⟩ := p
    intro lr g hg
    rw [List.map_cons, List.mem_cons] at hg
    push_neg at hg
    rw [mergeGo_cons]
    by_cases h1 : f ∈ prot
    · rw [if_pos h1]
      exact ih lr g hg.2
    · rw [if_neg h1]
      by_cases h2 : getA lr f = some cv
      · rw [if_pos h2]
        exact ih lr g hg.2
      · rw [if_neg h2]
        show getA (mergeGo prot (setA lr f cv) rest).1 g = getA lr g
        rw [ih _ g hg.2]
        exact getA_setA_ne _ _ _ _ (fun heq => hg.1 heq.symm)

/-- C1: for every matched pair and every field present in the canonical
record (whose keys are duplicate-free, as for any Python dict), the merged
record satisfies the per-field policy: a protected field keeps the local
value with decision `kept_local`; an unprotected field whose canonical
value differs from the local one adopts the canonical value with decision
`adopted_canonical`; an identical value leaves the record unchanged with
decision `unchanged`. -/
theorem merge_record_policy (local_rec canonical : Obj) (prot : List String)
    (hnodup : (canonical.map Prod.fst).Nodup) (f : String) (cv : Val)
    (hf : getA canonical f = some cv) :
    (f ∈ prot →
      getA (merge_record local_rec canonical prot).1 f = getA local_rec f ∧
      (f, MergeDecision.kept_local) ∈ (merge_record local_rec canonical prot).2) ∧
    (f ∉ prot → getA local_rec f ≠ some cv →
      getA (merge_record local_rec canonical prot).1 f = some cv ∧
      (f, MergeDecision.adopted_canonical) ∈
        (merge_record local_rec canonical prot).2) ∧
    (f ∉ prot → getA local_rec f = some cv →
      getA (merge_record local_rec canonical prot).1 f = getA local_rec f ∧
      (f, MergeDecision.unchanged) ∈ (merge_record local_rec canonical prot).2) := by
  unfold merge_record
  induction canonical generalizing local_rec with
  | nil => simp [getA] at hf
  | cons p rest ih =>
    obtain ⟨f0, cv0⟩ := p
    rw [List.map_cons, List.nodup_cons] at hnodup
    by_cases heq : f0 = f
    · subst heq
      rw [getA, if_pos rfl] at hf
      have hcv : cv0 = cv := by simpa using hf
      subst hcv
      have hfr : f0 ∉ rest.map Prod.fst := hnodup.1
      rw [mergeGo_cons]
      refine ⟨?_, ?_, ?_⟩
      · intro hprot
        rw [if_pos hprot]
        exact ⟨mergeGo_frame prot rest local_rec f0 hfr, List.mem_cons_self _ _⟩
      · intro hprot hne
        rw [if_neg hprot, if_neg hne]
        constructor
        · show getA (mergeGo prot (setA local_rec f0 cv0) rest).1 f0 = some cv0
          rw [mergeGo_frame prot rest _ f0 hfr]
          exact getA_setA_self _ _ _
        · exact List.mem_cons_self _ _
      · intro hprot hsame
        rw [if_neg hprot, if_pos hsame]
        refine ⟨?_, List.mem_cons_self _ _⟩
        show getA (mergeGo prot local_rec rest).1 f0 = getA local_rec f0
        exact mergeGo_frame prot rest local_rec f0 hfr
    · rw [getA, if_neg heq] at hf
      rw [mergeGo_cons]
      by_cases h1 : f0 ∈ prot
      · rw [if_pos h1]
        obtain ⟨c1, c2, c3⟩ := ih local_rec hnodup.2 hf
        exact ⟨fun hp => ⟨(c1 hp).1, List.mem_cons_of_mem _ (c1 hp).2⟩,
          fun hp hne => ⟨(c2 hp hne).1, List.mem_cons_of_mem _ (c2 hp hne).2⟩,
          fun hp hsame => ⟨(c3 hp hsame).1, List.mem_cons_of_mem _ (c3 hp hsame).2⟩⟩
      · rw [if_neg h1]
        by_cases h2 : getA local_rec f0 = some cv0
        · rw [if_pos h2]
          obtain ⟨c1, c2, c3⟩ := ih local_rec hnodup.2 hf
          exact ⟨fun hp => ⟨(c1 hp).1, List.mem_cons_of_mem _ (c1 hp).2⟩,
            fun hp hne => ⟨(c2 hp hne).1, List.mem_cons_of_mem _ (c2 hp hne).2⟩,
            fun hp hsame => ⟨(c3 hp hsame).1, List.mem_cons_of_mem _ (c3 hp hsame).2⟩⟩
        · rw [if_neg h2]
          have hlr : getA (setA local_rec f0 cv0) f = getA local_rec f :=
            getA_setA_ne _ _ _ _ heq
          obtain ⟨c1, c2, c3⟩ := ih (setA local_rec f0 cv0) hnodup.2 hf
          refine ⟨fun hp => ⟨?_, List.mem_cons_of_mem _ (c1 hp).2⟩,
            fun hp hne => ⟨?_, List.mem_cons_of_mem _
              ((c2 hp (by rwa [hlr])).2)⟩,
            fun hp hsame => ⟨?_, List.mem_cons_of_mem _
              ((c3 hp (by rwa [hlr])).2)⟩⟩
          · rw [(c1 hp).1, hlr]
          · exact (c2 hp (by rwa [hlr])).1
          · rw [(c3 hp (by rwa [hlr])).1, hlr]

/-- C1 (witness): Scenario D — matched pair with local
`{price_min: 100, protected_fields: ["price_min"]}` and canonical
`{price_min: 150}`: the merged `price_min` stays 100 with decision
`kept_local`; an unprotected differing field `name` adopts the canonical
value with decision `adopted_canonical`. -/
theorem merge_record_policy_witness :
    (getA (merge_record
        [("price_min", Val.prim (Prim.pInt 100)), ("name", Val.prim (Prim.pStr "x"))]
        [("price_min", Val.prim (Prim.pInt 150)), ("name", Val.prim (Prim.pStr "y"))]
        ["price_min"]).1 "price_min"
      = getA [("price_min", Val.prim (Prim.pInt 100)),
          ("name", Val.prim (Prim.pStr "x"))] "price_min" ∧
      ("price_min", MergeDecision.kept_local) ∈ (merge_record
        [("price_min", Val.prim (Prim.pInt 100)), ("name", Val.prim (Prim.pStr "x"))]
        [("price_min", Val.prim (Prim.pInt 150)), ("name", Val.prim (Prim.pStr "y"))]
        ["price_min"]).2) ∧
    (getA (merge_record
        [("price_min", Val.prim (Prim.pInt 100)), ("name", Val.prim (Prim.pStr "x"))]
        [("price_min", Val.prim (Prim.pInt 150)), ("name", Val.prim (Prim.pStr "y"))]
        ["price_min"]).1 "name" = some (Val.prim (Prim.pStr "y")) ∧
      ("name", MergeDecision.adopted_canonical) ∈ (merge_record
        [("price_min", Val.prim (Prim.pInt 100)), ("name", Val.prim (Prim.pStr "x"))]
        [("price_min", Val.prim (Prim.pInt 150)), ("name", Val.prim (Prim.pStr "y"))]
        ["price_min"]).2) := by
  constructor
  · exact (merge_record_policy
      [("price_min", Val.prim (Prim.pInt 100)), ("name", Val.prim (Prim.pStr "x"))]
      [("price_min", Val.prim (Prim.pInt 150)), ("name", Val.prim (Prim.pStr "y"))]
      ["price_min"] (by decide) "price_min" (Val.prim (Prim.pInt 150))
      (by decide)).1 (by decide)
  · exact ((merge_record_policy
      [("price_min", Val.prim (Prim.pInt 100)), ("name", Val.prim (Prim.pStr "x"))]
      [("price_min", Val.prim (Prim.pInt 150)), ("name", Val.prim (Prim.pStr "y"))]
      ["price_min"] (by decide) "name" (Val.prim (Prim.pStr "y"))
      (by decide)).2.1 (by decide) (by decide))

end Merger

end RefoAuto
